import Mathlib

/-!
Verification of the arrayfile persistent memory-mapped array
(src/arrayfile/array.py) against its natural-language specification.

The byte-level behaviour of the Python class `Array` is embedded shallowly:
the backing file is a `List Nat` of bytes, the process-memory state of an
`Array` instance is the structure `ArrayState`, and every public operation
of the class becomes a Lean function over that state.  The element codec
(Python's `struct.pack`/`struct.unpack` for a fixed dtype string) is an
external library, modelled by the `Encoding` structure together with the
well-formedness facts `Encoding.WF` that the real codec satisfies; the
concrete instance `encI32` models dtype "i" (little-endian signed 32-bit).
-/

set_option maxHeartbeats 1000000
set_option maxRecDepth 4000

namespace ArrayFile

/-- Little-endian byte encoding of a natural number in `w` bytes, as
produced by `struct.pack` for unsigned little-endian integer fields. -/
def leBytes : Nat → Nat → List Nat
  | 0, _ => []
  | w + 1, n => n % 256 :: leBytes w (n / 256)

/-- Little-endian byte decoding, as `struct.unpack` performs it. -/
def fromLE : List Nat → Nat
  | [] => 0
  | b :: bs => b + 256 * fromLE bs

@[simp] theorem leBytes_length (w n : Nat) : (leBytes w n).length = w := by
  induction w generalizing n with
  | zero => rfl
  | succ w ih => simp [leBytes, ih]

theorem fromLE_leBytes {w n : Nat} (h : n < 256 ^ w) : fromLE (leBytes w n) = n := by
  induction w generalizing n with
  | zero => simp [leBytes, fromLE]; omega
  | succ w ih =>
      have h2 : n / 256 < 256 ^ w := by
        rw [Nat.div_lt_iff_lt_mul (by norm_num)]
        calc n < 256 ^ (w + 1) := h
        _ = 256 ^ w * 256 := by ring
      simp [leBytes, fromLE, ih h2]
      omega

/-- Reading `k` bytes of a file at offset `off` (a slice of the mmap). -/
def readBytes (f : List Nat) (off k : Nat) : List Nat := (f.drop off).take k

/-- Overwriting bytes of a file at offset `off` (mmap slice assignment). -/
def writeBytes (f : List Nat) (off : Nat) (b : List Nat) : List Nat :=
  f.take off ++ b ++ f.drop (off + b.length)

/-- POSIX `ftruncate`: shrink the file, or extend it with zero bytes. -/
def truncate (f : List Nat) (n : Nat) : List Nat :=
  if n ≤ f.length then f.take n else f ++ List.replicate (n - f.length) 0

@[simp] theorem truncate_length (f : List Nat) (n : Nat) : (truncate f n).length = n := by
  unfold truncate
  split <;> simp <;> omega

theorem truncate_of_le {f : List Nat} {n : Nat} (h : f.length ≤ n) :
    truncate f n = f ++ List.replicate (n - f.length) 0 := by
  unfold truncate
  split
  · have : n = f.length := by omega
    subst this
    simp
  · rfl

theorem readBytes_length_of_le {f : List Nat} {off k : Nat} (h : off + k ≤ f.length) :
    (readBytes f off k).length = k := by
  simp [readBytes]; omega

theorem readBytes_append_left {f g : List Nat} {off k : Nat} (h : off + k ≤ f.length) :
    readBytes (f ++ g) off k = readBytes f off k := by
  unfold readBytes
  rw [List.drop_append_eq_append_drop]
  have hA : k ≤ (f.drop off).length := by simp; omega
  rw [List.take_append_of_le_length hA]

theorem writeBytes_length {f b : List Nat} {off : Nat} (h : off + b.length ≤ f.length) :
    (writeBytes f off b).length = f.length := by
  simp [writeBytes]; omega

theorem readBytes_writeBytes_self {f b : List Nat} {off : Nat} (h : off ≤ f.length) :
    readBytes (writeBytes f off b) off b.length = b := by
  unfold readBytes writeBytes
  have hlen : (f.take off).length = off := by simp; omega
  rw [List.append_assoc, List.drop_left' hlen, List.take_left]

theorem readBytes_writeBytes_left {f b : List Nat} {off off2 k : Nat}
    (hf : off ≤ f.length) (h : off2 + k ≤ off) :
    readBytes (writeBytes f off b) off2 k = readBytes f off2 k := by
  unfold readBytes writeBytes
  rw [List.append_assoc, List.drop_append_eq_append_drop]
  have hA : k ≤ ((f.take off).drop off2).length := by simp; omega
  rw [List.take_append_of_le_length hA, List.drop_take, List.take_take]
  have h3 : min k (off - off2) = k := by omega
  rw [h3]

theorem readBytes_writeBytes_right {f b : List Nat} {off off2 k : Nat}
    (hf : off ≤ f.length) (h : off + b.length ≤ off2) :
    readBytes (writeBytes f off b) off2 k = readBytes f off2 k := by
  unfold readBytes writeBytes
  have h1 : (f.take off ++ b).length = off + b.length := by simp; omega
  rw [List.drop_append_eq_append_drop]
  have h3 : (f.take off ++ b).drop off2 = [] := by
    apply List.drop_eq_nil_of_le
    omega
  rw [h3, List.nil_append, List.drop_drop, h1]
  have h4 : off + b.length + (off2 - (off + b.length)) = off2 := by omega
  rw [h4]

theorem readBytes_sub {f : List Nat} {a x k c : Nat} (h : x + k ≤ c) :
    readBytes f (a + x) k = ((readBytes f a c).drop x).take k := by
  unfold readBytes
  rw [List.drop_take, List.take_take]
  have h1 : min k (c - x) = k := by omega
  rw [h1, List.drop_drop]

/-- An element codec: Python's `struct` module specialised to one dtype
format string (`self._dtype_format`).  `fmt` is the ASCII byte sequence of
the format string, `elementSize` is `struct.calcsize(fmt)`, `pack` returns
`none` exactly when `struct.pack` raises `struct.error` for the value, and
`unpack` decodes an `elementSize`-byte slice. -/
structure Encoding where
  fmt : List Nat
  elementSize : Nat
  pack : Int → Option (List Nat)
  unpack : List Nat → Int

/-- Facts about the real `struct` codec that the embedding relies on:
elements have a fixed positive width that fits the header's 4-byte field,
the format string fits the header's 8-byte slot, packing produces exactly
`elementSize` bytes, and unpacking inverts packing. -/
structure Encoding.WF (enc : Encoding) : Prop where
  size_pos : 0 < enc.elementSize
  size_lt : enc.elementSize < 2 ^ 32
  fmt_le : enc.fmt.length ≤ 8
  pack_size : ∀ v b, enc.pack v = some b → b.length = enc.elementSize
  unpack_pack : ∀ v b, enc.pack v = some b → enc.unpack b = v

/-- Dtype "i": little-endian signed 32-bit integer, `struct.calcsize("i") = 4`.
Values outside the signed 32-bit range (2147483648 = 2^31) make
`struct.pack` raise; in-range values are stored as their two's-complement
residue modulo 4294967296 = 2^32 in 4 little-endian bytes. -/
def packI32 (v : Int) : Option (List Nat) :=
  if -2147483648 ≤ v ∧ v < 2147483648 then some (leBytes 4 (v % 4294967296).toNat)
  else none

def unpackI32 (bs : List Nat) : Int :=
  let n := fromLE bs
  if n < 2147483648 then (n : Int) else (n : Int) - 4294967296

def encI32 : Encoding where
  fmt := [105]
  elementSize := 4
  pack := packI32
  unpack := unpackI32

theorem encI32_wf : encI32.WF := by
  constructor
  · norm_num [encI32]
  · norm_num [encI32]
  · norm_num [encI32]
  · intro v b h
    simp only [encI32, packI32] at h
    split at h
    · injection h with h2
      rw [← h2]
      simp [encI32]
    · cases h
  · intro v b h
    simp only [encI32, packI32] at h
    split at h
    case isTrue hr =>
      injection h with h2
      subst h2
      have hlt : (v % 4294967296).toNat < 256 ^ 4 := by
        have h4 : (256 : Nat) ^ 4 = 4294967296 := by norm_num
        rw [h4]
        omega
      simp only [encI32, unpackI32, fromLE_leBytes hlt]
      split <;> omega
    case isFalse => cases h

/-- Dtype "3s": a 3-byte element (`struct.calcsize("3s") = 3`), used to
exercise element sizes that do not divide the chunk-aligned capacity.
The three raw bytes are represented by their little-endian value. -/
def pack3s (v : Int) : Option (List Nat) :=
  if 0 ≤ v ∧ v < 16777216 then some (leBytes 3 v.toNat) else none

def enc3s : Encoding where
  fmt := [51, 115]
  elementSize := 3
  pack := pack3s
  unpack := fun bs => (fromLE bs : Int)

theorem enc3s_wf : enc3s.WF := by
  constructor
  · norm_num [enc3s]
  · norm_num [enc3s]
  · norm_num [enc3s]
  · intro v b h
    simp only [enc3s, pack3s] at h
    split at h
    · injection h with h2
      rw [← h2]
      simp [enc3s]
    · cases h
  · intro v b h
    simp only [enc3s, pack3s] at h
    split at h
    case isTrue hr =>
      injection h with h2
      subst h2
      have hlt : v.toNat < 256 ^ 3 := by
        have h3 : (256 : Nat) ^ 3 = 16777216 := by norm_num
        rw [h3]
        omega
      simp only [enc3s, fromLE_leBytes hlt]
      omega
    case isFalse => cases h

/-! ## The container state and its operations

These definitions transcribe `class Array` of src/arrayfile/array.py.
The backing file is a byte list; `mmap` records whether a memory mapping
is active (`self._mmap is not None`), `fileOpen` whether the file handle
is open (`self._file is not None`).  Exceptions raised by an operation
are returned as a `Res` alongside the state the object is left in, since
a raising Python method still keeps its prior mutations. -/

def HEADER_SIZE : Nat := 32
def CHUNK_SIZE_BYTES : Nat := 4096
def MAGIC : List Nat := [65, 82, 89, 70]
def HEADER_VERSION : Nat := 1

/-- The dtype string truncated to 8 bytes and zero-padded to 8 bytes,
as `_write_header` prepares it. -/
def pad8 (xs : List Nat) : List Nat := xs.take 8 ++ List.replicate (8 - xs.length) 0

/-- The 32-byte header `struct.pack("<4sHB8sIQ5x", ...)` writes:
magic, version, dtype length, padded dtype, element size, length, padding. -/
def headerBytes (enc : Encoding) (len : Nat) : List Nat :=
  MAGIC ++ leBytes 2 HEADER_VERSION ++ [enc.fmt.length] ++ pad8 enc.fmt ++
    leBytes 4 enc.elementSize ++ leBytes 8 len ++ List.replicate 5 0

/-- In-process state of an `Array` instance (`self._...` attributes,
minus the immutable dtype which is passed to each operation). -/
structure ArrayState where
  file : List Nat
  mmap : Bool
  fileOpen : Bool
  len : Nat
  capacity : Nat
  capacityBytes : Nat
deriving DecidableEq

/-- The Python exceptions the class raises. -/
inductive Err
  | typeError
  | indexError
  | runtimeError
  | valueError
deriving DecidableEq

/-- Outcome of a mutating operation: normal return, a raised exception,
or the NotImplemented sentinel returned by `__imul__` and `__iadd__`. -/
inductive Res
  | ok
  | err (e : Err)
  | notImpl
deriving DecidableEq

/-- A Python object used as an index or repeat count: an int, or any
non-int object (for which `isinstance(x, int)` is false). -/
inductive PyInt
  | int (i : Int)
  | nonInt
deriving DecidableEq

/-- A Python operand of `__iadd__`: an iterable of element values, or a
non-iterable object. -/
inductive AddOperand
  | iter (vs : List Int)
  | nonIter
deriving DecidableEq

/-- `Array._validate_index`. -/
def validateIndex (s : ArrayState) (idx : PyInt) : Except Err Nat :=
  match idx with
  | .nonInt => .error .typeError
  | .int i =>
    let j := if i < 0 then (s.len : Int) + i else i
    if 0 ≤ j ∧ j < (s.len : Int) then .ok j.toNat else .error .indexError

/-- The `elementSize` bytes of element `i` in the mapped file. -/
def dataAt (enc : Encoding) (f : List Nat) (i : Nat) : List Nat :=
  readBytes f (HEADER_SIZE + i * enc.elementSize) enc.elementSize

/-- `Array.__getitem__`. -/
def getItem (enc : Encoding) (s : ArrayState) (idx : PyInt) : Except Err Int :=
  match validateIndex s idx with
  | .error e => .error e
  | .ok i =>
    if s.mmap then .ok (enc.unpack (dataAt enc s.file i))
    else .error .runtimeError

/-- `Array.__setitem__`. -/
def setItem (enc : Encoding) (s : ArrayState) (idx : PyInt) (v : Int) :
    Res × ArrayState :=
  match validateIndex s idx with
  | .error e => (.err e, s)
  | .ok i =>
    if s.mmap then
      match enc.pack v with
      | none => (.err .typeError, s)
      | some b =>
        (.ok, { s with file := writeBytes s.file (HEADER_SIZE + i * enc.elementSize) b })
    else (.err .runtimeError, s)

/-- `Array._allocate_capacity`: chunk-align the requested element count
and resize the file accordingly. -/
def allocateCapacity (enc : Encoding) (s : ArrayState) (minElements : Nat) : ArrayState :=
  let bytesNeeded := minElements * enc.elementSize + HEADER_SIZE
  let chunksNeeded := (bytesNeeded + CHUNK_SIZE_BYTES - 1) / CHUNK_SIZE_BYTES
  let totalFileSize := chunksNeeded * CHUNK_SIZE_BYTES
  { s with
    capacityBytes := totalFileSize - HEADER_SIZE
    capacity := (totalFileSize - HEADER_SIZE) / enc.elementSize
    file := truncate s.file totalFileSize }

/-- `Array._resize`: drop the mapping, reallocate, remap. -/
def resize (enc : Encoding) (s : ArrayState) (minNewLen : Nat) : ArrayState :=
  { allocateCapacity enc { s with mmap := false } minNewLen with mmap := true }

/-- `Array.append`. -/
def append (enc : Encoding) (s : ArrayState) (v : Int) : Res × ArrayState :=
  let s1 := if s.len = s.capacity then resize enc s (s.len + 1) else s
  match enc.pack v with
  | none => (.err .typeError, s1)
  | some b =>
    (.ok, { s1 with
            file := writeBytes s1.file (HEADER_SIZE + s1.len * enc.elementSize) b
            len := s1.len + 1 })

/-- The write loop of `Array.extend`: pack and write each value in turn,
stopping at the first value `struct.pack` rejects (earlier writes stay). -/
def extendLoop (enc : Encoding) : List Nat → Nat → List Int → Res × List Nat
  | f, _, [] => (.ok, f)
  | f, off, v :: rest =>
    match enc.pack v with
    | none => (.err .typeError, f)
    | some b => extendLoop enc (writeBytes f off b) (off + enc.elementSize) rest

/-- `Array.extend`. -/
def extend (enc : Encoding) (s : ArrayState) (vs : List Int) : Res × ArrayState :=
  if vs.length = 0 then (.ok, s)
  else
    let newLen := s.len + vs.length
    let s1 := if s.capacity < newLen then resize enc s newLen else s
    match extendLoop enc s1.file (HEADER_SIZE + s1.len * enc.elementSize) vs with
    | (.ok, f) => (.ok, { s1 with file := f, len := newLen })
    | (r, f) => (r, { s1 with file := f })

/-- `Array.__iadd__`. -/
def iadd (enc : Encoding) (s : ArrayState) (o : AddOperand) : Res × ArrayState :=
  match o with
  | .iter vs =>
    match extend enc s vs with
    | (.ok, s') => (.ok, s')
    | (r, s') => (r, s')
  | .nonIter => (.notImpl, s)

/-- The copy loop of `Array.__imul__` for counts above one: each pass
copies the original `len * elementSize`-byte block to the next tile. -/
def imulCopy (f : List Nat) (chunk dst : Nat) : Nat → List Nat
  | 0 => f
  | k + 1 =>
    imulCopy (writeBytes f dst (readBytes f HEADER_SIZE chunk)) chunk (dst + chunk) k

/-- `Array.__imul__`. -/
def imul (enc : Encoding) (s : ArrayState) (v : PyInt) : Res × ArrayState :=
  match v with
  | .nonInt => (.notImpl, s)
  | .int n =>
    if n < 0 then (.notImpl, s)
    else if n = 0 then
      (.ok, { s with
              len := 0
              mmap := false
              file := if s.fileOpen then truncate s.file 0 else s.file
              capacity := 0
              capacityBytes := 0 })
    else if 1 < n then
      let newLen := s.len * n.toNat
      let s1 := if s.capacity < newLen then resize enc s newLen else s
      let chunk := s.len * enc.elementSize
      (.ok, { s1 with
              file := imulCopy s1.file chunk (HEADER_SIZE + chunk) (n.toNat - 1)
              len := newLen })
    else (.ok, s)

/-- `Array.close`: flush and drop the mapping, rewrite the header with the
final length, truncate the file to the exact data size, close the handle. -/
def close (enc : Encoding) (s : ArrayState) : ArrayState :=
  let s1 := if s.mmap then { s with mmap := false } else s
  if s1.fileOpen then
    let f1 := writeBytes s1.file 0 (headerBytes enc s1.len)
    let actual := HEADER_SIZE + s1.len * enc.elementSize
    let f2 := if actual < f1.length then truncate f1 actual else f1
    { s1 with file := f2, fileOpen := false }
  else s1

/-- `Array.__init__` with `mode` containing "w" (or a fresh temp file):
truncate the file to empty, allocate the initial capacity, write a fresh
header, and map the file if the capacity region is non-empty. -/
def createNew (enc : Encoding) (initialElements : Nat) : ArrayState :=
  let s0 : ArrayState :=
    { file := [], mmap := false, fileOpen := true, len := 0, capacity := 0
      capacityBytes := 0 }
  let s1 := allocateCapacity enc s0 initialElements
  let s2 := { s1 with file := writeBytes s1.file 0 (headerBytes enc 0) }
  if 0 < s2.capacityBytes then { s2 with mmap := true } else s2

/-- `Array._read_header`: `.ok none` models the "no valid header" result
(short file or wrong magic), `.error .valueError` the fatal mismatches. -/
def readHeader (enc : Encoding) (file : List Nat) : Except Err (Option Nat) :=
  if file.length < HEADER_SIZE then .ok none
  else
    let magic := readBytes file 0 4
    let version := fromLE (readBytes file 4 2)
    let dtypeLen := (readBytes file 6 1).headD 0
    let dtypeBytes := readBytes file 7 8
    let elementSize := fromLE (readBytes file 15 4)
    let length := fromLE (readBytes file 19 8)
    if magic ≠ MAGIC then .ok none
    else if version ≠ HEADER_VERSION then .error .valueError
    else if dtypeBytes.take dtypeLen ≠ enc.fmt then .error .valueError
    else if elementSize ≠ enc.elementSize then .error .valueError
    else .ok (some length)

/-- `Array.__init__` opening an existing file (mode "r+b", file present):
validate the header, adopt the stored length, chunk-align the capacity to
the current file size, and map the file. -/
def openExisting (enc : Encoding) (file : List Nat) : Except Err ArrayState :=
  match readHeader enc file with
  | .error e => .error e
  | .ok none => .error .valueError
  | .ok (some length) =>
    let s0 : ArrayState :=
      { file := file, mmap := false, fileOpen := true, len := length
        capacity := 0, capacityBytes := 0 }
    let dataSize := file.length - HEADER_SIZE
    let minElements := (dataSize + enc.elementSize - 1) / enc.elementSize
    let s1 := allocateCapacity enc s0 minElements
    .ok (if 0 < s1.capacityBytes then { s1 with mmap := true } else s1)

deriving instance DecidableEq for Except

/-! ## Basic facts about capacity allocation -/

/-- The chunk-aligned file size `_allocate_capacity` computes for a
requested element count. -/
def totalSize (enc : Encoding) (m : Nat) : Nat :=
  (m * enc.elementSize + HEADER_SIZE + CHUNK_SIZE_BYTES - 1) / CHUNK_SIZE_BYTES *
    CHUNK_SIZE_BYTES

theorem allocateCapacity_eq (enc : Encoding) (s : ArrayState) (m : Nat) :
    allocateCapacity enc s m =
      { s with
        capacityBytes := totalSize enc m - HEADER_SIZE
        capacity := (totalSize enc m - HEADER_SIZE) / enc.elementSize
        file := truncate s.file (totalSize enc m) } := rfl

theorem totalSize_mod (enc : Encoding) (m : Nat) :
    totalSize enc m % CHUNK_SIZE_BYTES = 0 := by
  unfold totalSize
  exact Nat.mul_mod_left _ _

theorem totalSize_ge (enc : Encoding) (m : Nat) :
    m * enc.elementSize + HEADER_SIZE ≤ totalSize enc m := by
  unfold totalSize HEADER_SIZE CHUNK_SIZE_BYTES
  generalize m * enc.elementSize = x
  omega

theorem totalSize_ge_header (enc : Encoding) (m : Nat) :
    HEADER_SIZE ≤ totalSize enc m := by
  have h := totalSize_ge enc m
  omega

theorem le_capacity_of_alloc {enc : Encoding} (hes : 0 < enc.elementSize) (m : Nat) :
    m ≤ (totalSize enc m - HEADER_SIZE) / enc.elementSize := by
  rw [Nat.le_div_iff_mul_le hes]
  have h := totalSize_ge enc m
  omega

theorem cap_mul_le_capacityBytes {enc : Encoding} (cb : Nat) :
    cb / enc.elementSize * enc.elementSize ≤ cb :=
  Nat.div_mul_le_self cb enc.elementSize

/-! ## The reachable-state invariant

`Good enc vs s` says that `s` is a healthy open container holding exactly
the element sequence `vs`: the mapping is active, the cached length and
capacity agree with the chunk-aligned file, and byte region `i` of the
data area holds the packed form of `vs[i]`. -/

structure Good (enc : Encoding) (vs : List Int) (s : ArrayState) : Prop where
  mm : s.mmap = true
  fo : s.fileOpen = true
  lenEq : s.len = vs.length
  capEq : s.capacity = s.capacityBytes / enc.elementSize
  lenLe : s.len ≤ s.capacity
  flen : s.file.length = HEADER_SIZE + s.capacityBytes
  align : (HEADER_SIZE + s.capacityBytes) % CHUNK_SIZE_BYTES = 0
  data : ∀ i, i < vs.length → enc.pack (vs.getD i 0) = some (dataAt enc s.file i)

theorem Good.len_mul_le {enc : Encoding} {vs : List Int} {s : ArrayState}
    (hg : Good enc vs s) : s.len * enc.elementSize ≤ s.capacityBytes := by
  calc s.len * enc.elementSize ≤ s.capacity * enc.elementSize :=
        Nat.mul_le_mul_right _ hg.lenLe
  _ = s.capacityBytes / enc.elementSize * enc.elementSize := by rw [hg.capEq]
  _ ≤ s.capacityBytes := Nat.div_mul_le_self _ _

theorem headerBytes_length {enc : Encoding} (h : enc.fmt.length ≤ 8) (len : Nat) :
    (headerBytes enc len).length = 32 := by
  simp [headerBytes, pad8, MAGIC]
  omega

theorem createNew_eq (enc : Encoding) (k : Nat) :
    createNew enc k =
      (if 0 < totalSize enc k - HEADER_SIZE then
        { file := writeBytes (truncate [] (totalSize enc k)) 0 (headerBytes enc 0)
          mmap := true, fileOpen := true, len := 0
          capacity := (totalSize enc k - HEADER_SIZE) / enc.elementSize
          capacityBytes := totalSize enc k - HEADER_SIZE }
      else
        { file := writeBytes (truncate [] (totalSize enc k)) 0 (headerBytes enc 0)
          mmap := false, fileOpen := true, len := 0
          capacity := (totalSize enc k - HEADER_SIZE) / enc.elementSize
          capacityBytes := totalSize enc k - HEADER_SIZE }) := rfl

/-- A fresh container created by the "w" branch of the constructor holds
the empty sequence. -/
theorem good_createNew (enc : Encoding) (hwf : enc.WF) (k : Nat) :
    Good enc [] (createNew enc k) := by
  have hcb : 0 < totalSize enc k - HEADER_SIZE ∨ totalSize enc k - HEADER_SIZE = 0 := by
    omega
  have hts32 : HEADER_SIZE ≤ totalSize enc k := totalSize_ge_header enc k
  have hts : totalSize enc k % CHUNK_SIZE_BYTES = 0 := totalSize_mod enc k
  have hts4096 : CHUNK_SIZE_BYTES ≤ totalSize enc k := by
    have h1 : totalSize enc k ≠ 0 := by
      unfold HEADER_SIZE at hts32
      omega
    unfold CHUNK_SIZE_BYTES at hts ⊢
    omega
  have hpos : 0 < totalSize enc k - HEADER_SIZE := by
    unfold HEADER_SIZE
    unfold CHUNK_SIZE_BYTES at hts4096
    omega
  rw [createNew_eq, if_pos hpos]
  constructor
  case mm => rfl
  case fo => rfl
  case lenEq => rfl
  case capEq => rfl
  case lenLe => exact Nat.zero_le _
  case flen =>
    dsimp only
    rw [writeBytes_length]
    · rw [truncate_length]
      unfold HEADER_SIZE
      unfold HEADER_SIZE at hts32
      omega
    · rw [headerBytes_length hwf.fmt_le, truncate_length]
      unfold HEADER_SIZE at hts32
      omega
  case align =>
    dsimp only
    unfold HEADER_SIZE CHUNK_SIZE_BYTES
    unfold HEADER_SIZE at hts32
    unfold CHUNK_SIZE_BYTES at hts
    omega
  case data =>
    intro i hi
    simp at hi

theorem getD_append_lt {vs ws : List Int} {i : Nat} (h : i < vs.length) (d : Int) :
    (vs ++ ws).getD i d = vs.getD i d := by
  simp only [List.getD_eq_getElem?_getD]
  rw [List.getElem?_append_left h]

theorem getD_append_add {vs ws : List Int} (i : Nat) (d : Int) :
    (vs ++ ws).getD (vs.length + i) d = ws.getD i d := by
  simp only [List.getD_eq_getElem?_getD]
  rw [List.getElem?_append_right (by omega)]
  have h2 : vs.length + i - vs.length = i := by omega
  rw [h2]

theorem resize_eq (enc : Encoding) (s : ArrayState) (m : Nat) :
    resize enc s m =
      { s with
        mmap := true
        capacityBytes := totalSize enc m - HEADER_SIZE
        capacity := (totalSize enc m - HEADER_SIZE) / enc.elementSize
        file := truncate s.file (totalSize enc m) } := rfl

/-- Growing via `_resize` keeps the stored elements and reaches a capacity
of at least the requested element count. -/
theorem good_resize {enc : Encoding} {vs : List Int} {s : ArrayState}
    (hwf : enc.WF) (hg : Good enc vs s) {m : Nat} (hm : s.capacity < m) :
    Good enc vs (resize enc s m) ∧ m ≤ (resize enc s m).capacity := by
  have hes : 0 < enc.elementSize := hwf.size_pos
  have hbyte : s.capacityBytes < m * enc.elementSize := by
    have h1 : s.capacityBytes / enc.elementSize < m := hg.capEq ▸ hm
    exact (Nat.div_lt_iff_lt_mul hes).mp h1
  have hts_ge : m * enc.elementSize + HEADER_SIZE ≤ totalSize enc m := totalSize_ge enc m
  have hts32 : HEADER_SIZE ≤ totalSize enc m := totalSize_ge_header enc m
  have hgrow : s.file.length ≤ totalSize enc m := by
    rw [hg.flen]
    omega
  have hcap : m ≤ (totalSize enc m - HEADER_SIZE) / enc.elementSize :=
    le_capacity_of_alloc hes m
  rw [resize_eq]
  refine ⟨⟨rfl, hg.fo, hg.lenEq, rfl, ?_, ?_, ?_, ?_⟩, ?_⟩
  · -- lenLe
    dsimp only
    have h1 : s.len ≤ s.capacity := hg.lenLe
    omega
  · -- flen
    dsimp only
    rw [truncate_length]
    omega
  · -- align
    dsimp only
    have h1 : totalSize enc m % CHUNK_SIZE_BYTES = 0 := totalSize_mod enc m
    unfold HEADER_SIZE at hts32 ⊢
    unfold CHUNK_SIZE_BYTES at h1 ⊢
    omega
  · -- data
    dsimp only
    intro i hi
    rw [truncate_of_le hgrow]
    unfold dataAt
    rw [readBytes_append_left]
    · exact hg.data i hi
    · have h1 : (i + 1) * enc.elementSize ≤ vs.length * enc.elementSize := by
        apply Nat.mul_le_mul_right
        omega
      have h2 := hg.len_mul_le
      rw [hg.lenEq] at h2
      have h3 : HEADER_SIZE + i * enc.elementSize + enc.elementSize
          = HEADER_SIZE + (i + 1) * enc.elementSize := by ring
      rw [hg.flen]
      omega
  · -- capacity
    dsimp only
    exact hcap

/-- After the conditional grow step at the top of `append`, the container
is still good and has room for one more element. -/
theorem good_append_stage {enc : Encoding} {vs : List Int} {s : ArrayState}
    (hwf : enc.WF) (hg : Good enc vs s) :
    Good enc vs (if s.len = s.capacity then resize enc s (s.len + 1) else s) ∧
      (if s.len = s.capacity then resize enc s (s.len + 1) else s).len <
        (if s.len = s.capacity then resize enc s (s.len + 1) else s).capacity ∧
      (if s.len = s.capacity then resize enc s (s.len + 1) else s).len = s.len := by
  split
  case isTrue h =>
    have hm : s.capacity < s.len + 1 := by omega
    obtain ⟨hg2, hcap⟩ := good_resize hwf hg hm
    refine ⟨hg2, ?_, ?_⟩
    · have h1 : (resize enc s (s.len + 1)).len = s.len := by rw [resize_eq]
      omega
    · rw [resize_eq]
  case isFalse h =>
    exact ⟨hg, by have := hg.lenLe; omega, rfl⟩

/-- A successful `append` returns normally and appends the value. -/
theorem good_append {enc : Encoding} {vs : List Int} {s : ArrayState}
    (hwf : enc.WF) (hg : Good enc vs s) {v : Int} {b : List Nat}
    (hb : enc.pack v = some b) :
    (append enc s v).1 = .ok ∧ Good enc (vs ++ [v]) (append enc s v).2 := by
  obtain ⟨hg1, hlt, hlen1⟩ := good_append_stage hwf hg
  set s1 := if s.len = s.capacity then resize enc s (s.len + 1) else s with hs1
  have hes : 0 < enc.elementSize := hwf.size_pos
  have hbl : b.length = enc.elementSize := hwf.pack_size v b hb
  have hoff : HEADER_SIZE + s1.len * enc.elementSize + b.length ≤ s1.file.length := by
    rw [hg1.flen, hbl]
    have h1 : (s1.len + 1) * enc.elementSize ≤ s1.capacity * enc.elementSize := by
      apply Nat.mul_le_mul_right
      omega
    have h2 : s1.capacity * enc.elementSize ≤ s1.capacityBytes := by
      rw [hg1.capEq]
      exact Nat.div_mul_le_self _ _
    have h3 : HEADER_SIZE + s1.len * enc.elementSize + enc.elementSize
        = HEADER_SIZE + (s1.len + 1) * enc.elementSize := by ring
    omega
  unfold append
  rw [← hs1, hb]
  refine ⟨rfl, ?_⟩
  constructor
  case mm => exact hg1.mm
  case fo => exact hg1.fo
  case lenEq =>
    dsimp only
    rw [hg1.lenEq]
    simp
  case capEq => exact hg1.capEq
  case lenLe =>
    dsimp only
    omega
  case flen =>
    dsimp only
    rw [writeBytes_length hoff]
    exact hg1.flen
  case align => exact hg1.align
  case data =>
    dsimp only
    intro i hi
    simp only [List.length_append, List.length_cons, List.length_nil] at hi
    have hoffle : HEADER_SIZE + s1.len * enc.elementSize ≤ s1.file.length := by
      omega
    rcases Nat.lt_or_ge i vs.length with hilt | hige
    · rw [getD_append_lt hilt]
      unfold dataAt
      rw [readBytes_writeBytes_left hoffle]
      · exact hg1.data i hilt
      · rw [hg1.lenEq]
        have h1 : (i + 1) * enc.elementSize ≤ vs.length * enc.elementSize := by
          apply Nat.mul_le_mul_right
          omega
        have h3 : HEADER_SIZE + i * enc.elementSize + enc.elementSize
            = HEADER_SIZE + (i + 1) * enc.elementSize := by ring
        omega
    · have hieq : i = vs.length := by omega
      subst hieq
      have h0 : (vs ++ [v]).getD vs.length 0 = v := by
        simp
      rw [h0]
      have hsel := @readBytes_writeBytes_self s1.file b
        (HEADER_SIZE + s1.len * enc.elementSize) hoffle
      rw [hbl] at hsel
      unfold dataAt
      rw [← hg1.lenEq, hsel]
      exact hb

/-- A failing `append` (a value `struct.pack` rejects) raises TypeError
and leaves the stored sequence intact; the conditional grow may however
already have run, so the state is the staged one. -/
theorem append_fail {enc : Encoding} {vs : List Int} {s : ArrayState}
    (hwf : enc.WF) (hg : Good enc vs s) {v : Int} (hv : enc.pack v = none) :
    (append enc s v).1 = .err .typeError ∧ Good enc vs (append enc s v).2 := by
  obtain ⟨hg1, hlt, hlen1⟩ := good_append_stage hwf hg
  simp only [append, hv]
  exact ⟨trivial, hg1⟩

/-- Behaviour of the `extend` write loop: the file keeps its length, bytes
before the start offset are untouched, an all-packable batch is written out
element by element, and a batch containing an unpackable value raises. -/
theorem extendLoop_spec {enc : Encoding} (hwf : enc.WF) (ws : List Int) :
    ∀ (f : List Nat) (off : Nat),
      off + ws.length * enc.elementSize ≤ f.length →
      (extendLoop enc f off ws).2.length = f.length ∧
      (∀ o2 k, o2 + k ≤ off →
        readBytes (extendLoop enc f off ws).2 o2 k = readBytes f o2 k) ∧
      ((∀ v ∈ ws, (enc.pack v).isSome) → (extendLoop enc f off ws).1 = .ok ∧
        ∀ i, i < ws.length →
          enc.pack (ws.getD i 0) =
            some (readBytes (extendLoop enc f off ws).2
              (off + i * enc.elementSize) enc.elementSize)) ∧
      ((∃ v ∈ ws, enc.pack v = none) →
        (extendLoop enc f off ws).1 = .err .typeError) := by
  induction ws with
  | nil =>
    intro f off hb
    refine ⟨rfl, fun o2 k h => rfl, fun hall => ⟨rfl, fun i hi => by simp at hi⟩, ?_⟩
    rintro ⟨w, hw, hwnone⟩
    simp at hw
  | cons v rest ih =>
    intro f off hb
    have hlen_cons : (v :: rest).length * enc.elementSize
        = rest.length * enc.elementSize + enc.elementSize := by
      simp [List.length_cons]
      ring
    cases hpv : enc.pack v with
    | none =>
      simp only [extendLoop, hpv]
      refine ⟨trivial, fun o2 k h => trivial, ?_, fun h => trivial⟩
      intro hall
      have hmem := hall v (List.mem_cons_self v rest)
      rw [hpv] at hmem
      simp at hmem
    | some b =>
      have hbl : b.length = enc.elementSize := hwf.pack_size v b hpv
      have hes : 0 < enc.elementSize := hwf.size_pos
      have hwb : off + b.length ≤ f.length := by
        rw [hbl]
        omega
      have hflen2 : (writeBytes f off b).length = f.length := writeBytes_length hwb
      have hb2 : (off + enc.elementSize) + rest.length * enc.elementSize ≤
          (writeBytes f off b).length := by
        rw [hflen2]
        omega
      obtain ⟨hL, hR, hOK, hERR⟩ := ih (writeBytes f off b) (off + enc.elementSize) hb2
      simp only [extendLoop, hpv]
      refine ⟨?_, ?_, ?_, ?_⟩
      · rw [hL, hflen2]
      · intro o2 k h
        rw [hR o2 k (by omega)]
        exact readBytes_writeBytes_left (by omega) h
      · intro hall
        have hallrest : ∀ w ∈ rest, (enc.pack w).isSome := by
          intro w hw
          exact hall w (List.mem_cons_of_mem _ hw)
        obtain ⟨hok, hdata⟩ := hOK hallrest
        refine ⟨hok, ?_⟩
        intro i hi
        cases i with
        | zero =>
          simp only [List.getD_cons_zero, Nat.zero_mul, Nat.add_zero]
          have hreg := hR off enc.elementSize (by omega)
          have hself := @readBytes_writeBytes_self f b off (by omega)
          rw [hbl] at hself
          rw [hpv, hreg, hself]
        | succ i =>
          simp only [List.getD_cons_succ]
          have hoff2 : off + (i + 1) * enc.elementSize
              = off + enc.elementSize + i * enc.elementSize := by ring
          rw [hoff2]
          apply hdata
          simp at hi
          omega
      · rintro ⟨w, hw, hwnone⟩
        rcases List.mem_cons.mp hw with heq | hmem
        · subst heq
          rw [hpv] at hwnone
          cases hwnone
        · exact hERR ⟨w, hmem, hwnone⟩

/-- After the conditional grow step of `extend` (or the copy branch of
`__imul__`), the container is good with room for the new length. -/
theorem extend_stage {enc : Encoding} {vs : List Int} {s : ArrayState}
    (hwf : enc.WF) (hg : Good enc vs s) (n : Nat) :
    Good enc vs (if s.capacity < n then resize enc s n else s) ∧
      (s.capacity < n ∨ n ≤ s.capacity → n ≤
        (if s.capacity < n then resize enc s n else s).capacity) ∧
      (if s.capacity < n then resize enc s n else s).len = s.len := by
  split
  case isTrue h =>
    obtain ⟨hg2, hcap⟩ := good_resize hwf hg h
    exact ⟨hg2, fun _ => hcap, by rw [resize_eq]⟩
  case isFalse h =>
    exact ⟨hg, fun h2 => by omega, rfl⟩

/-- A successful `extend` appends the whole batch. -/
theorem good_extend {enc : Encoding} {vs : List Int} {s : ArrayState}
    (hwf : enc.WF) (hg : Good enc vs s) (ws : List Int)
    (hall : ∀ v ∈ ws, (enc.pack v).isSome) :
    (extend enc s ws).1 = .ok ∧ Good enc (vs ++ ws) (extend enc s ws).2 := by
  rcases Nat.eq_zero_or_pos ws.length with hws0 | hwspos
  · have hnil : ws = [] := List.length_eq_zero.mp hws0
    subst hnil
    simp only [extend, List.length_nil, if_pos rfl, List.append_nil]
    exact ⟨rfl, hg⟩
  · obtain ⟨hg1, hcap1, hlen1⟩ := extend_stage hwf hg (s.len + ws.length)
    set s1 := if s.capacity < s.len + ws.length then resize enc s (s.len + ws.length)
      else s with hs1
    have hcap : s.len + ws.length ≤ s1.capacity := hcap1 (by omega)
    have hes : 0 < enc.elementSize := hwf.size_pos
    have hmul : (s.len + ws.length) * enc.elementSize ≤ s1.capacityBytes := by
      calc (s.len + ws.length) * enc.elementSize
          ≤ s1.capacity * enc.elementSize := Nat.mul_le_mul_right _ hcap
      _ = s1.capacityBytes / enc.elementSize * enc.elementSize := by rw [hg1.capEq]
      _ ≤ s1.capacityBytes := Nat.div_mul_le_self _ _
    have hb : (HEADER_SIZE + s1.len * enc.elementSize) + ws.length * enc.elementSize
        ≤ s1.file.length := by
      rw [hg1.flen, hlen1]
      have hd : (s.len + ws.length) * enc.elementSize
          = s.len * enc.elementSize + ws.length * enc.elementSize := by ring
      omega
    obtain ⟨hL, hR, hOK, hERR⟩ :=
      extendLoop_spec hwf ws s1.file (HEADER_SIZE + s1.len * enc.elementSize) hb
    obtain ⟨hok, hdata⟩ := hOK hall
    rcases hEL : extendLoop enc s1.file (HEADER_SIZE + s1.len * enc.elementSize) ws
      with ⟨r, f2⟩
    rw [hEL] at hL hR hok hdata
    simp only at hok
    subst hok
    simp only [extend, ← hs1, hEL, if_neg (by omega : ¬ ws.length = 0)]
    refine ⟨trivial, ?_⟩
    constructor
    case mm => exact hg1.mm
    case fo => exact hg1.fo
    case lenEq =>
      dsimp only
      simp [hlen1, hg.lenEq]
    case capEq => exact hg1.capEq
    case lenLe =>
      dsimp only
      omega
    case flen =>
      dsimp only
      rw [hL]
      exact hg1.flen
    case align => exact hg1.align
    case data =>
      dsimp only
      intro i hi
      simp only [List.length_append] at hi
      rcases Nat.lt_or_ge i vs.length with hilt | hige
      · rw [getD_append_lt hilt]
        unfold dataAt
        rw [hR (HEADER_SIZE + i * enc.elementSize) enc.elementSize ?hle]
        case hle =>
          rw [hlen1, hg.lenEq]
          have h1 : (i + 1) * enc.elementSize ≤ vs.length * enc.elementSize := by
            apply Nat.mul_le_mul_right
            omega
          have h3 : HEADER_SIZE + i * enc.elementSize + enc.elementSize
              = HEADER_SIZE + (i + 1) * enc.elementSize := by ring
          omega
        exact hg1.data i hilt
      · obtain ⟨j, hj⟩ : ∃ j, i = vs.length + j := ⟨i - vs.length, by omega⟩
        subst hj
        rw [getD_append_add]
        have hjlt : j < ws.length := by omega
        have hd := hdata j hjlt
        unfold dataAt
        have hoffeq : HEADER_SIZE + (vs.length + j) * enc.elementSize
            = HEADER_SIZE + s1.len * enc.elementSize + j * enc.elementSize := by
          rw [hlen1, hg.lenEq]
          ring
        rw [hoffeq]
        exact hd

/-- An `extend` whose batch contains an unpackable value raises TypeError
after writing the earlier values beyond the logical end: the length and the
stored elements are unchanged (the capacity may have grown). -/
theorem extend_fail {enc : Encoding} {vs : List Int} {s : ArrayState}
    (hwf : enc.WF) (hg : Good enc vs s) (ws : List Int)
    (hbad : ∃ v ∈ ws, enc.pack v = none) :
    (extend enc s ws).1 = .err .typeError ∧ Good enc vs (extend enc s ws).2 := by
  have hwspos : 0 < ws.length := by
    obtain ⟨w, hw, _⟩ := hbad
    exact List.length_pos.mpr (by rintro rfl; simp at hw)
  obtain ⟨hg1, hcap1, hlen1⟩ := extend_stage hwf hg (s.len + ws.length)
  set s1 := if s.capacity < s.len + ws.length then resize enc s (s.len + ws.length)
    else s with hs1
  have hcap : s.len + ws.length ≤ s1.capacity := hcap1 (by omega)
  have hes : 0 < enc.elementSize := hwf.size_pos
  have hmul : (s.len + ws.length) * enc.elementSize ≤ s1.capacityBytes := by
    calc (s.len + ws.length) * enc.elementSize
        ≤ s1.capacity * enc.elementSize := Nat.mul_le_mul_right _ hcap
    _ = s1.capacityBytes / enc.elementSize * enc.elementSize := by rw [hg1.capEq]
    _ ≤ s1.capacityBytes := Nat.div_mul_le_self _ _
  have hb : (HEADER_SIZE + s1.len * enc.elementSize) + ws.length * enc.elementSize
      ≤ s1.file.length := by
    rw [hg1.flen, hlen1]
    have hd : (s.len + ws.length) * enc.elementSize
        = s.len * enc.elementSize + ws.length * enc.elementSize := by ring
    omega
  obtain ⟨hL, hR, hOK, hERR⟩ :=
    extendLoop_spec hwf ws s1.file (HEADER_SIZE + s1.len * enc.elementSize) hb
  have herr := hERR hbad
  rcases hEL : extendLoop enc s1.file (HEADER_SIZE + s1.len * enc.elementSize) ws
    with ⟨r, f2⟩
  rw [hEL] at hL hR herr
  simp only at herr
  subst herr
  simp only [extend, ← hs1, hEL, if_neg (by omega : ¬ ws.length = 0)]
  refine ⟨trivial, ?_⟩
  constructor
  case mm => exact hg1.mm
  case fo => exact hg1.fo
  case lenEq =>
    dsimp only
    rw [hlen1, hg.lenEq]
  case capEq => exact hg1.capEq
  case lenLe =>
    dsimp only
    rw [hlen1]
    have h1 := hg.lenLe
    omega
  case flen =>
    dsimp only
    rw [hL]
    exact hg1.flen
  case align => exact hg1.align
  case data =>
    dsimp only
    intro i hi
    unfold dataAt
    rw [hR (HEADER_SIZE + i * enc.elementSize) enc.elementSize ?hle]
    case hle =>
      rw [hlen1, hg.lenEq]
      have h1 : (i + 1) * enc.elementSize ≤ vs.length * enc.elementSize := by
        apply Nat.mul_le_mul_right
        omega
      have h3 : HEADER_SIZE + i * enc.elementSize + enc.elementSize
          = HEADER_SIZE + (i + 1) * enc.elementSize := by ring
      omega
    exact hg1.data i hi

/-! ## Index validation and element access -/

theorem validateIndex_nat (s : ArrayState) {i : Nat} (hi : i < s.len) :
    validateIndex s (.int (i : Int)) = .ok i := by
  simp only [validateIndex]
  rw [if_neg (by omega : ¬ ((i : Int) < 0))]
  rw [if_pos (by constructor <;> omega)]
  congr 1

theorem validateIndex_neg (s : ArrayState) {k : Nat} (h1 : 1 ≤ k) (h2 : k ≤ s.len) :
    validateIndex s (.int (-(k : Int))) = .ok (s.len - k) := by
  simp only [validateIndex]
  rw [if_pos (by omega : (-(k : Int)) < 0)]
  rw [if_pos (by constructor <;> omega)]
  congr 1
  omega

theorem validateIndex_neg_oob (s : ArrayState) {k : Nat} (h : s.len < k) :
    validateIndex s (.int (-(k : Int))) = .error .indexError := by
  simp only [validateIndex]
  rw [if_pos (by omega : (-(k : Int)) < 0)]
  rw [if_neg (by omega)]

theorem validateIndex_ge (s : ArrayState) {i : Int} (h : (s.len : Int) ≤ i) :
    validateIndex s (.int i) = .error .indexError := by
  simp only [validateIndex]
  rw [if_neg (by omega : ¬ (i < 0))]
  rw [if_neg (by omega)]

theorem validateIndex_nonInt (s : ArrayState) :
    validateIndex s .nonInt = .error .typeError := rfl

/-- Reading a valid index of a good container decodes the stored value. -/
theorem good_getItem {enc : Encoding} {vs : List Int} {s : ArrayState}
    (hwf : enc.WF) (hg : Good enc vs s) {i : Nat} (hi : i < vs.length) :
    getItem enc s (.int (i : Int)) = .ok (vs.getD i 0) := by
  have hi2 : i < s.len := by rw [hg.lenEq]; exact hi
  simp only [getItem, validateIndex_nat s hi2, hg.mm, if_true]
  congr 1
  have hd := hg.data i hi
  exact hwf.unpack_pack _ _ hd

/-- A `__setitem__` whose value `struct.pack` rejects raises TypeError and
leaves the state exactly unchanged (the pack runs before the write). -/
theorem setItem_pack_fail {enc : Encoding} {s : ArrayState} {j : Nat}
    (hj : j < s.len) (hmm : s.mmap = true) {v : Int} (hv : enc.pack v = none) :
    setItem enc s (.int (j : Int)) v = (.err .typeError, s) := by
  simp only [setItem, validateIndex_nat s hj, hmm, if_true, hv]

/-! ## The `__imul__` copy loop -/

theorem imulCopy_spec : ∀ (k : Nat) (f : List Nat) (chunk dst : Nat),
    HEADER_SIZE + chunk ≤ dst → dst + k * chunk ≤ f.length →
    (imulCopy f chunk dst k).length = f.length ∧
    (∀ o2 kk, o2 + kk ≤ dst →
      readBytes (imulCopy f chunk dst k) o2 kk = readBytes f o2 kk) ∧
    (∀ j, j < k → readBytes (imulCopy f chunk dst k) (dst + j * chunk) chunk
      = readBytes f HEADER_SIZE chunk) := by
  intro k
  induction k with
  | zero =>
    intro f chunk dst hd hb
    exact ⟨rfl, fun o2 kk h => rfl, fun j hj => by omega⟩
  | succ k ih =>
    intro f chunk dst hd hb
    have hkc : (k + 1) * chunk = k * chunk + chunk := by ring
    have hdstle : dst + chunk ≤ f.length := by omega
    have hsrc_le : HEADER_SIZE + chunk ≤ f.length := by omega
    have hblen : (readBytes f HEADER_SIZE chunk).length = chunk :=
      readBytes_length_of_le hsrc_le
    have hwb : dst + (readBytes f HEADER_SIZE chunk).length ≤ f.length := by
      rw [hblen]
      omega
    have hflen2 : (writeBytes f dst (readBytes f HEADER_SIZE chunk)).length
        = f.length := writeBytes_length hwb
    have hsource : readBytes (writeBytes f dst (readBytes f HEADER_SIZE chunk))
        HEADER_SIZE chunk = readBytes f HEADER_SIZE chunk :=
      readBytes_writeBytes_left (by omega) hd
    have hb2 : (dst + chunk) + k * chunk
        ≤ (writeBytes f dst (readBytes f HEADER_SIZE chunk)).length := by
      rw [hflen2]
      omega
    obtain ⟨hL, hR, hreg⟩ := ih (writeBytes f dst (readBytes f HEADER_SIZE chunk))
      chunk (dst + chunk) (by omega) hb2
    simp only [imulCopy]
    refine ⟨by rw [hL, hflen2], ?_, ?_⟩
    · intro o2 kk h
      rw [hR o2 kk (by omega)]
      exact readBytes_writeBytes_left (by omega) h
    · intro j hj
      cases j with
      | zero =>
        simp only [Nat.zero_mul, Nat.add_zero]
        rw [hR dst chunk (by omega)]
        have hself := @readBytes_writeBytes_self f (readBytes f HEADER_SIZE chunk)
          dst (by omega)
        rw [hblen] at hself
        rw [hself]
      | succ j =>
        have hoff : dst + (j + 1) * chunk = (dst + chunk) + j * chunk := by ring
        rw [hoff, hreg j (by omega), hsource]

/-- `n` copies of a list laid end to end: the contents `__imul__` produces. -/
def tile : Nat → List Int → List Int
  | 0, _ => []
  | n + 1, vs => vs ++ tile n vs

theorem tile_length (n : Nat) (vs : List Int) : (tile n vs).length = n * vs.length := by
  induction n with
  | zero => simp [tile]
  | succ n ih =>
    simp [tile, ih]
    ring

theorem tile_getD {vs : List Int} {n j i : Nat} (hj : j < n) (hi : i < vs.length) :
    (tile n vs).getD (j * vs.length + i) 0 = vs.getD i 0 := by
  induction n generalizing j with
  | zero => omega
  | succ n ih =>
    cases j with
    | zero =>
      simp only [tile, Nat.zero_mul, Nat.zero_add]
      exact getD_append_lt hi 0
    | succ j =>
      show (vs ++ tile n vs).getD ((j + 1) * vs.length + i) 0 = _
      have hoff : (j + 1) * vs.length + i = vs.length + (j * vs.length + i) := by ring
      rw [hoff, getD_append_add]
      exact ih (by omega)

/-- `__imul__` with a count of at least one succeeds and tiles the stored
sequence; a count of exactly one leaves the state untouched. -/
theorem good_imul {enc : Encoding} {vs : List Int} {s : ArrayState}
    (hwf : enc.WF) (hg : Good enc vs s) {n : Nat} (hn : 1 ≤ n) :
    (imul enc s (.int (n : Int))).1 = .ok ∧
      Good enc (tile n vs) (imul enc s (.int (n : Int))).2 := by
  rcases eq_or_lt_of_le hn with h1 | h2
  · -- n = 1: the elif chain falls through and returns self unchanged
    have hn1 : n = 1 := h1.symm
    subst hn1
    simp only [imul]
    rw [if_neg (by omega : ¬ ((1 : Nat) : Int) < 0)]
    rw [if_neg (by omega : ¬ ((1 : Nat) : Int) = 0)]
    rw [if_neg (by omega : ¬ (1 : Int) < ((1 : Nat) : Int))]
    have ht : tile 1 vs = vs := by simp [tile]
    rw [ht]
    exact ⟨rfl, hg⟩
  · -- n ≥ 2: grow if needed, then copy the original block n - 1 times
    have hes : 0 < enc.elementSize := hwf.size_pos
    have htn : ((n : Int)).toNat = n := by omega
    obtain ⟨hg1, hcap1, hlen1⟩ := extend_stage hwf hg (s.len * n)
    set s1 := if s.capacity < s.len * n then resize enc s (s.len * n) else s with hs1
    have hcap : s.len * n ≤ s1.capacity := hcap1 (by omega)
    have hmul : (s.len * n) * enc.elementSize ≤ s1.capacityBytes := by
      calc (s.len * n) * enc.elementSize
          ≤ s1.capacity * enc.elementSize := Nat.mul_le_mul_right _ hcap
      _ = s1.capacityBytes / enc.elementSize * enc.elementSize := by rw [hg1.capEq]
      _ ≤ s1.capacityBytes := Nat.div_mul_le_self _ _
    have hbound : (HEADER_SIZE + s.len * enc.elementSize) +
        (n - 1) * (s.len * enc.elementSize) ≤ s1.file.length := by
      have he2 : n - 1 + 1 = n := by omega
      have he1 : s.len * enc.elementSize + (n - 1) * (s.len * enc.elementSize)
          = (n - 1 + 1) * (s.len * enc.elementSize) := by ring
      rw [he2] at he1
      have he3 : n * (s.len * enc.elementSize) = (s.len * n) * enc.elementSize := by
        ring
      rw [hg1.flen]
      omega
    obtain ⟨hL, hR, hreg⟩ := imulCopy_spec (n - 1) s1.file
      (s.len * enc.elementSize) (HEADER_SIZE + s.len * enc.elementSize)
      (by omega) hbound
    simp only [imul]
    rw [if_neg (by omega : ¬ ((n : Nat) : Int) < 0)]
    rw [if_neg (by omega : ¬ ((n : Nat) : Int) = 0)]
    rw [if_pos (by omega : (1 : Int) < ((n : Nat) : Int))]
    simp only [htn, ← hs1]
    refine ⟨trivial, ?_⟩
    constructor
    case mm => exact hg1.mm
    case fo => exact hg1.fo
    case lenEq =>
      dsimp only
      rw [tile_length, hg.lenEq]
      ring
    case capEq => exact hg1.capEq
    case lenLe =>
      dsimp only
      omega
    case flen =>
      dsimp only
      rw [hL]
      exact hg1.flen
    case align => exact hg1.align
    case data =>
      dsimp only
      intro m hm
      rw [tile_length] at hm
      have hL0 : 0 < vs.length := by
        rcases Nat.eq_zero_or_pos vs.length with h0 | hpos
        · rw [h0] at hm
          omega
        · exact hpos
      have hj : m / vs.length < n := by
        rw [Nat.div_lt_iff_lt_mul hL0]
        exact hm
      have hi : m % vs.length < vs.length := Nat.mod_lt _ hL0
      have hm_eq : (m / vs.length) * vs.length + m % vs.length = m := by
        have h0 := Nat.div_add_mod m vs.length
        have hc : (m / vs.length) * vs.length = vs.length * (m / vs.length) := by ring
        omega
      rw [← hm_eq, tile_getD hj hi]
      set j := m / vs.length with hjdef
      set i := m % vs.length with hidef
      have hchunk : s.len * enc.elementSize = vs.length * enc.elementSize := by
        rw [hg.lenEq]
      have hies : (i + 1) * enc.elementSize ≤ vs.length * enc.elementSize :=
        Nat.mul_le_mul_right _ (by omega)
      have hie : (i + 1) * enc.elementSize
          = i * enc.elementSize + enc.elementSize := by ring
      cases hjz : j with
      | zero =>
        -- first tile: untouched region below the copy destination
        have hoff : HEADER_SIZE + (0 * vs.length + i) * enc.elementSize
            = HEADER_SIZE + i * enc.elementSize := by ring_nf
        unfold dataAt
        rw [hjz] at hm_eq
        rw [hoff]
        rw [hR (HEADER_SIZE + i * enc.elementSize) enc.elementSize (by omega)]
        have hg1d := hg1.data i hi
        unfold dataAt at hg1d
        exact hg1d
      | succ j2 =>
        -- later tiles: the copied block, then the slice for element i
        have hregj := hreg j2 (by omega)
        unfold dataAt
        have hoff : HEADER_SIZE + ((j2 + 1) * vs.length + i) * enc.elementSize
            = (HEADER_SIZE + s.len * enc.elementSize +
               j2 * (s.len * enc.elementSize)) + i * enc.elementSize := by
          rw [hg.lenEq]
          ring
        rw [hoff]
        rw [readBytes_sub (by omega : i * enc.elementSize + enc.elementSize
          ≤ s.len * enc.elementSize)]
        rw [hregj]
        rw [← readBytes_sub (by omega : i * enc.elementSize + enc.elementSize
          ≤ s.len * enc.elementSize)]
        have hg1d := hg1.data i hi
        unfold dataAt at hg1d
        exact hg1d

/-! ## Closing and reopening -/

theorem readBytes_skip {a r : List Nat} {o off k n : Nat} (ha : a.length = n)
    (ho : o = n + off) : readBytes (a ++ r) o k = readBytes r off k := by
  subst ho
  subst ha
  unfold readBytes
  rw [List.drop_append]

theorem readBytes_take {b r : List Nat} {k : Nat} (hb : b.length = k) :
    readBytes (b ++ r) 0 k = b := by
  unfold readBytes
  rw [List.drop_zero, List.take_left' hb]

theorem readBytes_readBytes {f : List Nat} {a x k c : Nat} (h : x + k ≤ c) :
    readBytes (readBytes f a c) x k = readBytes f (a + x) k := by
  rw [readBytes_sub h]
  rfl

theorem pad8_length {xs : List Nat} (h : xs.length ≤ 8) : (pad8 xs).length = 8 := by
  simp [pad8]
  omega

theorem pad8_take {xs : List Nat} (h : xs.length ≤ 8) :
    (pad8 xs).take xs.length = xs := by
  unfold pad8
  rw [List.take_of_length_le h]
  rw [List.take_append_of_le_length (le_refl _)]
  exact List.take_length xs

/-- Reading back a header written by `_write_header` (with the same
encoding) recovers the stored length. -/
theorem readHeader_headerBytes {enc : Encoding} (hwf : enc.WF) (L : Nat)
    (hL : L < 2 ^ 64) (d : List Nat) :
    readHeader enc (headerBytes enc L ++ d) = .ok (some L) := by
  have hfl : (headerBytes enc L).length = 32 := headerBytes_length hwf.fmt_le L
  have hflen : ¬ ((headerBytes enc L ++ d).length < HEADER_SIZE) := by
    simp [hfl, HEADER_SIZE]
  have hassoc : headerBytes enc L ++ d
      = MAGIC ++ (leBytes 2 HEADER_VERSION ++ ([enc.fmt.length] ++ (pad8 enc.fmt ++
        (leBytes 4 enc.elementSize ++ (leBytes 8 L ++ (List.replicate 5 0 ++ d)))))) := by
    simp [headerBytes, List.append_assoc]
  have e1 : readBytes (headerBytes enc L ++ d) 0 4 = MAGIC := by
    rw [hassoc]
    exact readBytes_take rfl
  have e2 : readBytes (headerBytes enc L ++ d) 4 2 = leBytes 2 HEADER_VERSION := by
    rw [hassoc, readBytes_skip rfl (by norm_num : (4 : Nat) = 4 + 0)]
    exact readBytes_take (leBytes_length 2 _)
  have e3 : readBytes (headerBytes enc L ++ d) 6 1 = [enc.fmt.length] := by
    rw [hassoc, readBytes_skip rfl (by norm_num : (6 : Nat) = 4 + 2),
        readBytes_skip (leBytes_length 2 _) (by norm_num : (2 : Nat) = 2 + 0)]
    exact readBytes_take rfl
  have e4 : readBytes (headerBytes enc L ++ d) 7 8 = pad8 enc.fmt := by
    rw [hassoc, readBytes_skip rfl (by norm_num : (7 : Nat) = 4 + 3),
        readBytes_skip (leBytes_length 2 _) (by norm_num : (3 : Nat) = 2 + 1),
        readBytes_skip (rfl : ([enc.fmt.length] : List Nat).length = 1)
          (by norm_num : (1 : Nat) = 1 + 0)]
    exact readBytes_take (pad8_length hwf.fmt_le)
  have e5 : readBytes (headerBytes enc L ++ d) 15 4 = leBytes 4 enc.elementSize := by
    rw [hassoc, readBytes_skip rfl (by norm_num : (15 : Nat) = 4 + 11),
        readBytes_skip (leBytes_length 2 _) (by norm_num : (11 : Nat) = 2 + 9),
        readBytes_skip (rfl : ([enc.fmt.length] : List Nat).length = 1)
          (by norm_num : (9 : Nat) = 1 + 8),
        readBytes_skip (pad8_length hwf.fmt_le) (by norm_num : (8 : Nat) = 8 + 0)]
    exact readBytes_take (leBytes_length 4 _)
  have e6 : readBytes (headerBytes enc L ++ d) 19 8 = leBytes 8 L := by
    rw [hassoc, readBytes_skip rfl (by norm_num : (19 : Nat) = 4 + 15),
        readBytes_skip (leBytes_length 2 _) (by norm_num : (15 : Nat) = 2 + 13),
        readBytes_skip (rfl : ([enc.fmt.length] : List Nat).length = 1)
          (by norm_num : (13 : Nat) = 1 + 12),
        readBytes_skip (pad8_length hwf.fmt_le) (by norm_num : (12 : Nat) = 8 + 4),
        readBytes_skip (leBytes_length 4 _) (by norm_num : (4 : Nat) = 4 + 0)]
    exact readBytes_take (leBytes_length 8 _)
  have hv2 : fromLE (leBytes 2 HEADER_VERSION) = HEADER_VERSION :=
    fromLE_leBytes (by norm_num [HEADER_VERSION])
  have hv4 : fromLE (leBytes 4 enc.elementSize) = enc.elementSize := by
    apply fromLE_leBytes
    have h1 := hwf.size_lt
    have h2 : (256 : Nat) ^ 4 = 2 ^ 32 := by norm_num
    omega
  have hv8 : fromLE (leBytes 8 L) = L := by
    apply fromLE_leBytes
    have h2 : (256 : Nat) ^ 8 = 2 ^ 64 := by norm_num
    omega
  simp only [readHeader]
  rw [if_neg hflen]
  simp only [e1, e2, e3, e4, e5, e6, hv2, hv4, hv8, List.headD_cons]
  rw [if_neg (by simp)]
  rw [if_neg (by simp [HEADER_VERSION])]
  rw [if_neg (by rw [pad8_take hwf.fmt_le]; simp)]
  rw [if_neg (by simp)]

/-- Explicit form of `close` on an open, mapped container. -/
theorem close_eq_of {s : ArrayState} (enc : Encoding) (hm : s.mmap = true)
    (hf : s.fileOpen = true) :
    close enc s =
      { s with
        mmap := false
        fileOpen := false
        file := (if HEADER_SIZE + s.len * enc.elementSize
            < (writeBytes s.file 0 (headerBytes enc s.len)).length
          then truncate (writeBytes s.file 0 (headerBytes enc s.len))
            (HEADER_SIZE + s.len * enc.elementSize)
          else writeBytes s.file 0 (headerBytes enc s.len)) } := by
  rcases s with ⟨f, mm, fo, len, cap, capB⟩
  replace hm : mm = true := hm
  replace hf : fo = true := hf
  subst hm
  subst hf
  rfl

/-- The byte-level effect of `close` on a good container: after the header
rewrite and the truncation, the file is exactly the 32-byte header followed
by the packed data region. -/
theorem close_spec {enc : Encoding} {vs : List Int} {s : ArrayState}
    (hwf : enc.WF) (hg : Good enc vs s) :
    (close enc s).file
      = headerBytes enc vs.length ++
        readBytes s.file HEADER_SIZE (vs.length * enc.elementSize) := by
  have hhl : (headerBytes enc s.len).length = 32 := headerBytes_length hwf.fmt_le _
  have hml := hg.len_mul_le
  have hflen := hg.flen
  have hwb : (0 : Nat) + (headerBytes enc s.len).length ≤ s.file.length := by
    rw [hhl, hflen]
    unfold HEADER_SIZE
    omega
  have hf1 : writeBytes s.file 0 (headerBytes enc s.len)
      = headerBytes enc s.len ++ s.file.drop 32 := by
    unfold writeBytes
    rw [hhl]
    simp
  have hf1len : (writeBytes s.file 0 (headerBytes enc s.len)).length
      = s.file.length := writeBytes_length hwb
  rw [close_eq_of enc hg.mm hg.fo]
  dsimp only
  split
  case isTrue hlt =>
    have htr : truncate (writeBytes s.file 0 (headerBytes enc s.len))
        (HEADER_SIZE + s.len * enc.elementSize)
        = (writeBytes s.file 0 (headerBytes enc s.len)).take
            (HEADER_SIZE + s.len * enc.elementSize) := by
      unfold truncate
      rw [if_pos (by omega)]
    rw [htr, hf1]
    have hsplit : HEADER_SIZE + s.len * enc.elementSize
        = (headerBytes enc s.len).length + s.len * enc.elementSize := by
      rw [hhl]
      rfl
    rw [hsplit, List.take_append]
    rw [hg.lenEq]
    rfl
  case isFalse hge =>
    rw [hf1len] at hge
    have heq : s.len * enc.elementSize = s.capacityBytes := by
      rw [hflen] at hge
      unfold HEADER_SIZE at hge
      omega
    rw [hf1, hg.lenEq]
    congr 1
    unfold readBytes
    rw [← hg.lenEq, heq]
    symm
    apply List.take_of_length_le
    rw [List.length_drop, hflen]
    unfold HEADER_SIZE
    omega

theorem close_len (enc : Encoding) (s : ArrayState) : (close enc s).len = s.len := by
  rcases s with ⟨f, mm, fo, len, cap, capB⟩
  cases mm <;> cases fo <;> rfl

/-- Reopening the file written by `close` with the same encoding yields a
good container with the same contents. -/
theorem openExisting_good {enc : Encoding} {vs : List Int} {s : ArrayState}
    (hwf : enc.WF) (hg : Good enc vs s) (hL : vs.length < 2 ^ 64) :
    ∃ s2, openExisting enc (close enc s).file = .ok s2 ∧ Good enc vs s2 := by
  have hes : 0 < enc.elementSize := hwf.size_pos
  have hcf := close_spec hwf hg
  have hDlen : (readBytes s.file HEADER_SIZE (vs.length * enc.elementSize)).length
      = vs.length * enc.elementSize := by
    apply readBytes_length_of_le
    rw [hg.flen]
    have h1 := hg.len_mul_le
    rw [hg.lenEq] at h1
    omega
  have hcflen : (close enc s).file.length
      = HEADER_SIZE + vs.length * enc.elementSize := by
    rw [hcf, List.length_append, headerBytes_length hwf.fmt_le, hDlen]
    rfl
  have hrh : readHeader enc (close enc s).file = .ok (some vs.length) := by
    rw [hcf]
    exact readHeader_headerBytes hwf vs.length hL _
  have hminel : ((close enc s).file.length - HEADER_SIZE + enc.elementSize - 1)
      / enc.elementSize = vs.length := by
    rw [hcflen]
    have h1 : HEADER_SIZE + vs.length * enc.elementSize - HEADER_SIZE
        + enc.elementSize - 1
        = (enc.elementSize - 1) + vs.length * enc.elementSize := by
      omega
    rw [h1, Nat.add_mul_div_right _ _ hes, Nat.div_eq_of_lt (by omega)]
    omega
  have hts_ge : vs.length * enc.elementSize + HEADER_SIZE
      ≤ totalSize enc vs.length := totalSize_ge enc vs.length
  have hts32 : HEADER_SIZE ≤ totalSize enc vs.length := totalSize_ge_header enc _
  have htsmod : totalSize enc vs.length % CHUNK_SIZE_BYTES = 0 := totalSize_mod enc _
  have hts4096 : CHUNK_SIZE_BYTES ≤ totalSize enc vs.length := by
    unfold CHUNK_SIZE_BYTES at htsmod ⊢
    unfold HEADER_SIZE at hts32
    omega
  have hpos : 0 < totalSize enc vs.length - HEADER_SIZE := by
    unfold HEADER_SIZE
    unfold CHUNK_SIZE_BYTES at hts4096
    omega
  have hgrow : (close enc s).file.length ≤ totalSize enc vs.length := by
    rw [hcflen]
    omega
  have hopen : openExisting enc (close enc s).file = .ok
      { file := truncate (close enc s).file (totalSize enc vs.length)
        mmap := true
        fileOpen := true
        len := vs.length
        capacity := (totalSize enc vs.length - HEADER_SIZE) / enc.elementSize
        capacityBytes := totalSize enc vs.length - HEADER_SIZE } := by
    simp only [openExisting, hrh]
    rw [allocateCapacity_eq, hminel]
    rw [if_pos hpos]
  refine ⟨_, hopen, ?_⟩
  constructor
  case mm => rfl
  case fo => rfl
  case lenEq => rfl
  case capEq => rfl
  case lenLe =>
    dsimp only
    exact le_capacity_of_alloc hes vs.length
  case flen =>
    dsimp only
    rw [truncate_length]
    unfold HEADER_SIZE
    unfold HEADER_SIZE at hts32
    omega
  case align =>
    dsimp only
    unfold HEADER_SIZE
    unfold HEADER_SIZE at hts32
    unfold CHUNK_SIZE_BYTES at htsmod ⊢
    omega
  case data =>
    dsimp only
    intro i hi
    have hie : i * enc.elementSize + enc.elementSize
        = (i + 1) * enc.elementSize := by ring
    have hies : (i + 1) * enc.elementSize ≤ vs.length * enc.elementSize :=
      Nat.mul_le_mul_right _ (by omega)
    rw [truncate_of_le hgrow]
    unfold dataAt
    rw [readBytes_append_left (by rw [hcflen]; omega)]
    rw [hcf]
    rw [readBytes_skip (headerBytes_length hwf.fmt_le vs.length)
      (rfl : HEADER_SIZE + i * enc.elementSize = 32 + i * enc.elementSize)]
    rw [readBytes_readBytes (by omega)]
    have hd := hg.data i hi
    unfold dataAt at hd
    have hoeq : HEADER_SIZE + i * enc.elementSize
        = 32 + i * enc.elementSize := rfl
    rw [hoeq] at hd
    exact hd

/-- The sequence of `append` calls used by the round-trip property. -/
def appendAll (enc : Encoding) (s : ArrayState) : List Int → Res × ArrayState
  | [] => (.ok, s)
  | v :: rest =>
    match append enc s v with
    | (.ok, s2) => appendAll enc s2 rest
    | (r, s2) => (r, s2)

theorem appendAll_good {enc : Encoding} (hwf : enc.WF) :
    ∀ (ws vs : List Int) (s : ArrayState), Good enc vs s →
      (∀ v ∈ ws, (enc.pack v).isSome) →
      (appendAll enc s ws).1 = .ok ∧ Good enc (vs ++ ws) (appendAll enc s ws).2 := by
  intro ws
  induction ws with
  | nil =>
    intro vs s hg hall
    constructor
    · rfl
    · rw [List.append_nil]
      exact hg
  | cons v rest ih =>
    intro vs s hg hall
    have hv : (enc.pack v).isSome := hall v (List.mem_cons_self v rest)
    obtain ⟨b, hb⟩ := Option.isSome_iff_exists.mp hv
    obtain ⟨hok, hg2⟩ := good_append hwf hg hb
    rcases hA : append enc s v with ⟨r, s2⟩
    rw [hA] at hok hg2
    simp only at hok hg2
    subst hok
    simp only [appendAll, hA]
    have hrec := ih (vs ++ [v]) s2 hg2
      (fun w hw => hall w (List.mem_cons_of_mem _ hw))
    rw [List.append_assoc] at hrec
    exact hrec

theorem validateIndex_sub (s : ArrayState) {k : Nat} (h1 : 1 ≤ k) (h2 : k ≤ s.len) :
    validateIndex s (.int ((s.len : Int) - k)) = .ok (s.len - k) := by
  simp only [validateIndex]
  rw [if_neg (show ¬ ((s.len : Int) - (k : Int) < 0) by omega)]
  rw [if_pos (by constructor <;> omega)]
  congr 1
  omega

/-! ## The claims -/

/-- C1: for every sequence of values of a fixed encoding, appending each
value to a freshly created container, closing, and reopening the same file
with the same encoding yields a container with the same length and the
same values in the same order.  (The length must fit the 8-byte header
field, as it always does in practice.) -/
theorem claim1_round_trip (enc : Encoding) (hwf : enc.WF) (vs : List Int) (k : Nat)
    (hall : ∀ v ∈ vs, (enc.pack v).isSome) (hlen : vs.length < 2 ^ 64) :
    (appendAll enc (createNew enc k) vs).1 = .ok ∧
    ∃ s2, openExisting enc (close enc (appendAll enc (createNew enc k) vs).2).file
        = .ok s2 ∧
      s2.len = vs.length ∧
      ∀ i, i < vs.length → getItem enc s2 (.int (i : Int)) = .ok (vs.getD i 0) := by
  obtain ⟨hok, hg⟩ :=
    appendAll_good hwf vs [] (createNew enc k) (good_createNew enc hwf k) hall
  rw [List.nil_append] at hg
  obtain ⟨s2, hopen, hg2⟩ := openExisting_good hwf hg hlen
  exact ⟨hok, s2, hopen, hg2.lenEq, fun i hi => good_getItem hwf hg2 hi⟩

theorem claim1_round_trip_witness :
    (appendAll encI32 (createNew encI32 0) [7, -3]).1 = .ok ∧
    ∃ s2, openExisting encI32
        (close encI32 (appendAll encI32 (createNew encI32 0) [7, -3]).2).file
        = .ok s2 ∧
      s2.len = ([7, -3] : List Int).length ∧
      ∀ i, i < ([7, -3] : List Int).length →
        getItem encI32 s2 (.int (i : Int)) = .ok (([7, -3] : List Int).getD i 0) :=
  claim1_round_trip encI32 encI32_wf [7, -3] 0 (by decide) (by decide)

/-- C2: after an in-place repeat by n greater than or equal to 1 on a
container holding v0..v(L-1), the container has length L*n and every tile
j of n repeats the original sequence; n = 1 leaves the container
unchanged. -/
theorem claim2_repeat_law (enc : Encoding) (hwf : enc.WF) (vs : List Int)
    (s : ArrayState) (hg : Good enc vs s) (n : Nat) (hn : 1 ≤ n) :
    (imul enc s (.int (n : Int))).1 = .ok ∧
    (imul enc s (.int (n : Int))).2.len = vs.length * n ∧
    (∀ j i, j < n → i < vs.length →
      getItem enc (imul enc s (.int (n : Int))).2
        (.int ((j * vs.length + i : Nat) : Int)) = .ok (vs.getD i 0)) ∧
    (n = 1 → (imul enc s (.int (n : Int))).2 = s) := by
  obtain ⟨hok, hg2⟩ := good_imul hwf hg hn
  refine ⟨hok, ?_, ?_, ?_⟩
  · rw [hg2.lenEq, tile_length]
    ring
  · intro j i hj hi
    have hlt : j * vs.length + i < (tile n vs).length := by
      rw [tile_length]
      have ha : (j + 1) * vs.length = j * vs.length + vs.length := by ring
      have hb : (j + 1) * vs.length ≤ n * vs.length :=
        Nat.mul_le_mul_right _ (by omega)
      omega
    have h := good_getItem hwf hg2 hlt
    rw [tile_getD hj hi] at h
    exact h
  · intro h1
    subst h1
    simp only [imul]
    rw [if_neg (by omega : ¬ ((1 : Nat) : Int) < 0)]
    rw [if_neg (by omega : ¬ ((1 : Nat) : Int) = 0)]
    rw [if_neg (by omega : ¬ (1 : Int) < ((1 : Nat) : Int))]

theorem claim2_repeat_law_witness :
    (imul encI32 (extend encI32 (createNew encI32 0) [0, 1, 2]).2
        (.int ((3 : Nat) : Int))).1 = .ok ∧
    (imul encI32 (extend encI32 (createNew encI32 0) [0, 1, 2]).2
        (.int ((3 : Nat) : Int))).2.len = ([0, 1, 2] : List Int).length * 3 ∧
    (∀ j i, j < 3 → i < ([0, 1, 2] : List Int).length →
      getItem encI32 (imul encI32 (extend encI32 (createNew encI32 0) [0, 1, 2]).2
          (.int ((3 : Nat) : Int))).2
        (.int ((j * ([0, 1, 2] : List Int).length + i : Nat) : Int))
        = .ok (([0, 1, 2] : List Int).getD i 0)) ∧
    (3 = 1 → (imul encI32 (extend encI32 (createNew encI32 0) [0, 1, 2]).2
        (.int ((3 : Nat) : Int))).2 = (extend encI32 (createNew encI32 0) [0, 1, 2]).2) :=
  claim2_repeat_law encI32 encI32_wf [0, 1, 2] _
    ((good_extend encI32_wf (good_createNew encI32 encI32_wf 0) [0, 1, 2]
      (by decide)).2) 3 (by norm_num)

/-- C4: negative indices address from the end: get(-k) equals get(L-k) for
1 ≤ k ≤ L; a negative index with k greater than L, and a non-negative
index at least L, raise the range error; a non-integral index raises the
type error; indexed writes use the same normalization and validation. -/
theorem claim4_indexing (enc : Encoding) (s : ArrayState) (k m : Nat)
    (v : Int) (i : Int)
    (hk1 : 1 ≤ k) (hk2 : k ≤ s.len) (hm : s.len < m) (hi : (s.len : Int) ≤ i) :
    (getItem enc s (.int (-(k : Int))) = getItem enc s (.int ((s.len : Int) - k)) ∧
     setItem enc s (.int (-(k : Int))) v
       = setItem enc s (.int ((s.len : Int) - k)) v) ∧
    (getItem enc s (.int (-(m : Int))) = .error .indexError ∧
     setItem enc s (.int (-(m : Int))) v = (.err .indexError, s)) ∧
    (getItem enc s (.int i) = .error .indexError ∧
     setItem enc s (.int i) v = (.err .indexError, s)) ∧
    (getItem enc s .nonInt = .error .typeError ∧
     setItem enc s .nonInt v = (.err .typeError, s)) := by
  have hv1 := validateIndex_neg s hk1 hk2
  have hv2 := validateIndex_sub s hk1 hk2
  have hv3 := validateIndex_neg_oob s hm
  have hv4 := validateIndex_ge s hi
  refine ⟨⟨?_, ?_⟩, ⟨?_, ?_⟩, ⟨?_, ?_⟩, ⟨rfl, rfl⟩⟩
  · simp only [getItem, hv1, hv2]
  · simp only [setItem, hv1, hv2]
  · simp only [getItem, hv3]
  · simp only [setItem, hv3]
  · simp only [getItem, hv4]
  · simp only [setItem, hv4]

theorem claim4_indexing_witness :
    ((getItem encI32 (extend encI32 (createNew encI32 0) [10, 20, 30]).2
        (.int (-(1 : Nat))) = getItem encI32
          (extend encI32 (createNew encI32 0) [10, 20, 30]).2
          (.int (((extend encI32 (createNew encI32 0) [10, 20, 30]).2.len : Int)
            - (1 : Nat))) ∧
      setItem encI32 (extend encI32 (createNew encI32 0) [10, 20, 30]).2
        (.int (-(1 : Nat))) 42 = setItem encI32
          (extend encI32 (createNew encI32 0) [10, 20, 30]).2
          (.int (((extend encI32 (createNew encI32 0) [10, 20, 30]).2.len : Int)
            - (1 : Nat))) 42) ∧
     (getItem encI32 (extend encI32 (createNew encI32 0) [10, 20, 30]).2
        (.int (-(5 : Nat))) = .error .indexError ∧
      setItem encI32 (extend encI32 (createNew encI32 0) [10, 20, 30]).2
        (.int (-(5 : Nat))) 42
        = (.err .indexError, (extend encI32 (createNew encI32 0) [10, 20, 30]).2)) ∧
     (getItem encI32 (extend encI32 (createNew encI32 0) [10, 20, 30]).2
        (.int 7) = .error .indexError ∧
      setItem encI32 (extend encI32 (createNew encI32 0) [10, 20, 30]).2
        (.int 7) 42
        = (.err .indexError, (extend encI32 (createNew encI32 0) [10, 20, 30]).2)) ∧
     (getItem encI32 (extend encI32 (createNew encI32 0) [10, 20, 30]).2
        .nonInt = .error .typeError ∧
      setItem encI32 (extend encI32 (createNew encI32 0) [10, 20, 30]).2
        .nonInt 42
        = (.err .typeError, (extend encI32 (createNew encI32 0) [10, 20, 30]).2))) :=
  claim4_indexing encI32 (extend encI32 (createNew encI32 0) [10, 20, 30]).2
    1 5 42 7 (by decide) (by decide) (by decide) (by decide)

/-- C7: in-place repeat with a negative or non-integral count, and in-place
concatenate with a non-iterable operand, return the NotImplemented sentinel
(no exception) and leave the state exactly unchanged. -/
theorem claim7_not_implemented (enc : Encoding) (s : ArrayState) (n : Int)
    (hn : n < 0) :
    imul enc s (.int n) = (.notImpl, s) ∧
    imul enc s .nonInt = (.notImpl, s) ∧
    iadd enc s .nonIter = (.notImpl, s) := by
  refine ⟨?_, rfl, rfl⟩
  simp only [imul]
  rw [if_pos hn]

theorem claim7_not_implemented_witness :
    imul encI32 (createNew encI32 0) (.int (-1)) = (.notImpl, createNew encI32 0) ∧
    imul encI32 (createNew encI32 0) .nonInt = (.notImpl, createNew encI32 0) ∧
    iadd encI32 (createNew encI32 0) .nonIter = (.notImpl, createNew encI32 0) :=
  claim7_not_implemented encI32 (createNew encI32 0) (-1) (by norm_num)

/-- C8: close is idempotent: a second close finds no mapping and no open
file handle, performs nothing, and raises nothing, so the container state
and the backing file are exactly those left by the first close. -/
theorem claim8_idempotent_close (enc : Encoding) (s : ArrayState) :
    close enc (close enc s) = close enc s := by
  rcases s with ⟨f, mm, fo, len, cap, capB⟩
  cases mm <;> cases fo <;> rfl

/-- Reduction of `__imul__` at the literal count 0. -/
theorem imul_zero_eq (enc : Encoding) (s : ArrayState) :
    imul enc s (.int 0) = (.ok,
      { s with
        len := 0
        mmap := false
        file := if s.fileOpen = true then truncate s.file 0 else s.file
        capacity := 0
        capacityBytes := 0 }) := rfl

/-- C5 (amended): repeat(0) on a non-empty open container sets the length
and the capacity to 0 and truncates the backing file to 0 bytes (the
header is only rewritten at the next close), not to the 32-byte header
size the claim states. -/
theorem claim5_repeat_zero_amended (enc : Encoding) (s : ArrayState)
    (hopen : s.fileOpen = true) (_hne : 1 ≤ s.len) :
    (imul enc s (.int 0)).1 = .ok ∧
    (imul enc s (.int 0)).2.len = 0 ∧
    (imul enc s (.int 0)).2.capacity = 0 ∧
    (imul enc s (.int 0)).2.capacityBytes = 0 ∧
    (imul enc s (.int 0)).2.file.length = 0 := by
  rw [imul_zero_eq]
  refine ⟨rfl, rfl, rfl, rfl, ?_⟩
  dsimp only
  rw [hopen]
  simp [truncate_length]

/-- C5 counterexample: on the concrete non-empty container holding 1,2,3
the backing file after repeat(0) has 0 bytes, not the 32 bytes (header
size) the claim states. -/
theorem claim5_repeat_zero_cx :
    (extend encI32 (createNew encI32 0) [1, 2, 3]).2.len = 3 ∧
    ¬ ((imul encI32 (extend encI32 (createNew encI32 0) [1, 2, 3]).2
        (.int 0)).2.file.length = 32) ∧
    (imul encI32 (extend encI32 (createNew encI32 0) [1, 2, 3]).2
        (.int 0)).2.file.length = 0 := by
  have h0 : (imul encI32 (extend encI32 (createNew encI32 0) [1, 2, 3]).2
      (.int 0)).2.file.length = 0 := by
    rw [imul_zero_eq]
    dsimp only
    rw [if_pos (by decide :
      (extend encI32 (createNew encI32 0) [1, 2, 3]).2.fileOpen = true)]
    exact truncate_length _ 0
  refine ⟨by decide, ?_, h0⟩
  rw [h0]
  decide

/-- C9 (amended): on a freshly cleared zero-capacity container every
indexed read or write still fails loudly, but with the range error (or the
type error for a non-integral index), because index validation runs before
the mapping check and the length of such a container is 0; the no-mapping
state error is reached only when a valid index meets an absent mapping,
which requires positive length (e.g. reading after close). -/
theorem claim9_cleared_access_amended (enc : Encoding) (s : ArrayState)
    (hcb : s.capacityBytes = 0)
    (hcap : s.capacity = s.capacityBytes / enc.elementSize)
    (hle : s.len ≤ s.capacity) (v : Int) :
    (∀ i : Int, getItem enc s (.int i) = .error .indexError ∧
      setItem enc s (.int i) v = (.err .indexError, s)) ∧
    (getItem enc s .nonInt = .error .typeError ∧
      setItem enc s .nonInt v = (.err .typeError, s)) ∧
    (∀ s2 : ArrayState, s2.mmap = false → 0 < s2.len →
      getItem enc s2 (.int ((0 : Nat) : Int)) = .error .runtimeError) := by
  have hlen0 : s.len = 0 := by
    rw [hcap, hcb, Nat.zero_div] at hle
    omega
  have hv : ∀ i : Int, validateIndex s (.int i) = .error .indexError := by
    intro i
    simp only [validateIndex, hlen0]
    rw [if_neg]
    rintro ⟨ha, hb⟩
    omega
  refine ⟨?_, ⟨rfl, rfl⟩, ?_⟩
  · intro i
    constructor
    · simp only [getItem, hv i]
    · simp only [setItem, hv i]
  · intro s2 hmm hpos
    simp only [getItem, validateIndex_nat s2 hpos, hmm]
    rfl

/-- C9 counterexample: on the concrete freshly cleared zero-capacity
container, reading index 0 raises the range error, not the no-mapping
state error the claim names. -/
theorem claim9_cleared_access_cx :
    (imul encI32 (extend encI32 (createNew encI32 0) [1]).2
      (.int 0)).2.capacityBytes = 0 ∧
    getItem encI32 (imul encI32 (extend encI32 (createNew encI32 0) [1]).2
      (.int 0)).2 (.int 0) = .error .indexError ∧
    ¬ (getItem encI32 (imul encI32 (extend encI32 (createNew encI32 0) [1]).2
      (.int 0)).2 (.int 0) = .error .runtimeError) := by
  decide

/-- C10: an append, indexed write, or extend whose value cannot be packed
raises the type error and leaves the length and every stored element
unchanged (the capacity may still have grown for a batch, and for an
append that hit the grow path before packing). -/
theorem claim10_failed_write_preserves (enc : Encoding) (hwf : enc.WF)
    (vs : List Int) (s : ArrayState) (hg : Good enc vs s)
    (v : Int) (hv : enc.pack v = none) (ws : List Int)
    (hws : ∃ w ∈ ws, enc.pack w = none) (j : Nat) (hj : j < vs.length) :
    ((append enc s v).1 = .err .typeError ∧ (append enc s v).2.len = s.len ∧
      ∀ m, m < s.len →
        getItem enc (append enc s v).2 (.int (m : Int)) = .ok (vs.getD m 0)) ∧
    ((extend enc s ws).1 = .err .typeError ∧ (extend enc s ws).2.len = s.len ∧
      ∀ m, m < s.len →
        getItem enc (extend enc s ws).2 (.int (m : Int)) = .ok (vs.getD m 0)) ∧
    setItem enc s (.int (j : Int)) v = (.err .typeError, s) := by
  obtain ⟨ha1, hga⟩ := append_fail hwf hg hv
  obtain ⟨he1, hge⟩ := extend_fail hwf hg ws hws
  refine ⟨⟨ha1, ?_, ?_⟩, ⟨he1, ?_, ?_⟩, ?_⟩
  · rw [hga.lenEq, hg.lenEq]
  · intro m hm
    rw [hg.lenEq] at hm
    exact good_getItem hwf hga hm
  · rw [hge.lenEq, hg.lenEq]
  · intro m hm
    rw [hg.lenEq] at hm
    exact good_getItem hwf hge hm
  · exact setItem_pack_fail (by rw [hg.lenEq]; exact hj) hg.mm hv

theorem claim10_failed_write_preserves_witness :
    (((append encI32 (extend encI32 (createNew encI32 0) [5]).2 2147483648).1
        = .err .typeError ∧
      (append encI32 (extend encI32 (createNew encI32 0) [5]).2 2147483648).2.len
        = (extend encI32 (createNew encI32 0) [5]).2.len ∧
      ∀ m, m < (extend encI32 (createNew encI32 0) [5]).2.len →
        getItem encI32 (append encI32 (extend encI32 (createNew encI32 0) [5]).2
          2147483648).2 (.int (m : Int)) = .ok (([5] : List Int).getD m 0)) ∧
     ((extend encI32 (extend encI32 (createNew encI32 0) [5]).2 [2147483648]).1
        = .err .typeError ∧
      (extend encI32 (extend encI32 (createNew encI32 0) [5]).2 [2147483648]).2.len
        = (extend encI32 (createNew encI32 0) [5]).2.len ∧
      ∀ m, m < (extend encI32 (createNew encI32 0) [5]).2.len →
        getItem encI32 (extend encI32 (extend encI32 (createNew encI32 0) [5]).2
          [2147483648]).2 (.int (m : Int)) = .ok (([5] : List Int).getD m 0)) ∧
     setItem encI32 (extend encI32 (createNew encI32 0) [5]).2 (.int ((0 : Nat) : Int))
       2147483648
       = (.err .typeError, (extend encI32 (createNew encI32 0) [5]).2)) :=
  claim10_failed_write_preserves encI32 encI32_wf [5] _
    ((good_extend encI32_wf (good_createNew encI32 encI32_wf 0) [5] (by decide)).2)
    2147483648 (by decide) [2147483648] ⟨2147483648, by decide⟩ 0 (by decide)

theorem claim5_repeat_zero_amended_witness :
    (imul encI32 (extend encI32 (createNew encI32 0) [1, 2, 3]).2 (.int 0)).1 = .ok ∧
    (imul encI32 (extend encI32 (createNew encI32 0) [1, 2, 3]).2 (.int 0)).2.len = 0 ∧
    (imul encI32 (extend encI32 (createNew encI32 0) [1, 2, 3]).2
      (.int 0)).2.capacity = 0 ∧
    (imul encI32 (extend encI32 (createNew encI32 0) [1, 2, 3]).2
      (.int 0)).2.capacityBytes = 0 ∧
    (imul encI32 (extend encI32 (createNew encI32 0) [1, 2, 3]).2
      (.int 0)).2.file.length = 0 :=
  claim5_repeat_zero_amended encI32 (extend encI32 (createNew encI32 0) [1, 2, 3]).2
    (by decide) (by decide)

theorem claim9_cleared_access_amended_witness :
    (∀ i : Int, getItem encI32 (imul encI32 (extend encI32 (createNew encI32 0) [1]).2
        (.int 0)).2 (.int i) = .error .indexError ∧
      setItem encI32 (imul encI32 (extend encI32 (createNew encI32 0) [1]).2
        (.int 0)).2 (.int i) 9
        = (.err .indexError, (imul encI32 (extend encI32 (createNew encI32 0) [1]).2
          (.int 0)).2)) ∧
    (getItem encI32 (imul encI32 (extend encI32 (createNew encI32 0) [1]).2
        (.int 0)).2 .nonInt = .error .typeError ∧
      setItem encI32 (imul encI32 (extend encI32 (createNew encI32 0) [1]).2
        (.int 0)).2 .nonInt 9
        = (.err .typeError, (imul encI32 (extend encI32 (createNew encI32 0) [1]).2
          (.int 0)).2)) ∧
    (∀ s2 : ArrayState, s2.mmap = false → 0 < s2.len →
      getItem encI32 s2 (.int ((0 : Nat) : Int)) = .error .runtimeError) :=
  claim9_cleared_access_amended encI32
    (imul encI32 (extend encI32 (createNew encI32 0) [1]).2 (.int 0)).2
    (by decide) (by decide) (by decide) 9

/-! ## The size invariant and the reachable states

For the growth-monotonicity and file-size claims only the size-related
fields matter, not the stored bytes, so a data-free invariant suffices.
`Cleared` describes the state left by `repeat(0)`. -/

structure SizeOk (enc : Encoding) (s : ArrayState) : Prop where
  mm : s.mmap = true
  fo : s.fileOpen = true
  capEq : s.capacity = s.capacityBytes / enc.elementSize
  lenLe : s.len ≤ s.capacity
  flen : s.file.length = HEADER_SIZE + s.capacityBytes
  align : (HEADER_SIZE + s.capacityBytes) % CHUNK_SIZE_BYTES = 0

structure Cleared (s : ArrayState) : Prop where
  f0 : s.file = []
  mm : s.mmap = false
  fo : s.fileOpen = true
  len0 : s.len = 0
  cap0 : s.capacity = 0
  capB0 : s.capacityBytes = 0

/-- The invariant every live container satisfies. -/
def Healthy (enc : Encoding) (s : ArrayState) : Prop := SizeOk enc s ∨ Cleared s

theorem Good.sizeOk {enc : Encoding} {vs : List Int} {s : ArrayState}
    (hg : Good enc vs s) : SizeOk enc s :=
  ⟨hg.mm, hg.fo, hg.capEq, hg.lenLe, hg.flen, hg.align⟩

theorem SizeOk.lenBytes_le {enc : Encoding} {s : ArrayState}
    (h : SizeOk enc s) : s.len * enc.elementSize ≤ s.capacityBytes := by
  calc s.len * enc.elementSize ≤ s.capacity * enc.elementSize :=
        Nat.mul_le_mul_right _ h.lenLe
  _ = s.capacityBytes / enc.elementSize * enc.elementSize := by rw [h.capEq]
  _ ≤ s.capacityBytes := Nat.div_mul_le_self _ _

theorem Healthy.fo {enc : Encoding} {s : ArrayState} (h : Healthy enc s) :
    s.fileOpen = true := by
  rcases h with hS | hC
  · exact hS.fo
  · exact hC.fo

theorem Healthy.len_le {enc : Encoding} {s : ArrayState} (h : Healthy enc s) :
    s.len ≤ s.capacity := by
  rcases h with hS | hC
  · exact hS.lenLe
  · rw [hC.len0, hC.cap0]

/-- `_resize` always restores the size invariant, from any open state. -/
theorem resize_sizeOk {enc : Encoding} {s : ArrayState} (hwf : enc.WF)
    (hfo : s.fileOpen = true) (m : Nat) (hm : s.len ≤ m) :
    SizeOk enc (resize enc s m) ∧ m ≤ (resize enc s m).capacity ∧
      (resize enc s m).len = s.len := by
  have hes : 0 < enc.elementSize := hwf.size_pos
  have hts32 : HEADER_SIZE ≤ totalSize enc m := totalSize_ge_header enc m
  have htsmod : totalSize enc m % CHUNK_SIZE_BYTES = 0 := totalSize_mod enc m
  have hcap : m ≤ (totalSize enc m - HEADER_SIZE) / enc.elementSize :=
    le_capacity_of_alloc hes m
  rw [resize_eq]
  refine ⟨⟨rfl, hfo, rfl, ?_, ?_, ?_⟩, hcap, rfl⟩
  · dsimp only
    omega
  · dsimp only
    rw [truncate_length]
    unfold HEADER_SIZE
    unfold HEADER_SIZE at hts32
    omega
  · dsimp only
    unfold HEADER_SIZE
    unfold HEADER_SIZE at hts32
    unfold CHUNK_SIZE_BYTES at htsmod ⊢
    omega

/-- The conditional grow at the top of `append` restores the size invariant
with room for one more element. -/
theorem append_stage_sizeOk {enc : Encoding} {s : ArrayState} (hwf : enc.WF)
    (h : Healthy enc s) :
    SizeOk enc (if s.len = s.capacity then resize enc s (s.len + 1) else s) ∧
      (if s.len = s.capacity then resize enc s (s.len + 1) else s).len <
        (if s.len = s.capacity then resize enc s (s.len + 1) else s).capacity := by
  split
  case isTrue heq =>
    obtain ⟨h1, h2, h3⟩ := resize_sizeOk hwf h.fo (s.len + 1) (by omega)
    exact ⟨h1, by omega⟩
  case isFalse hne =>
    rcases h with hS | hC
    · exact ⟨hS, by have := hS.lenLe; omega⟩
    · exact absurd (by rw [hC.len0, hC.cap0]) hne

theorem inv_append {enc : Encoding} {s : ArrayState} (hwf : enc.WF)
    (h : Healthy enc s) (v : Int) : SizeOk enc (append enc s v).2 := by
  obtain ⟨hg1, hlt⟩ := append_stage_sizeOk hwf h
  set s1 := if s.len = s.capacity then resize enc s (s.len + 1) else s with hs1
  have hes : 0 < enc.elementSize := hwf.size_pos
  cases hpv : enc.pack v with
  | none =>
    simp only [append, ← hs1, hpv]
    exact hg1
  | some b =>
    have hbl : b.length = enc.elementSize := hwf.pack_size v b hpv
    have hoff : HEADER_SIZE + s1.len * enc.elementSize + b.length ≤ s1.file.length := by
      rw [hg1.flen, hbl]
      have h1 : (s1.len + 1) * enc.elementSize ≤ s1.capacity * enc.elementSize :=
        Nat.mul_le_mul_right _ (by omega)
      have h2 : s1.capacity * enc.elementSize ≤ s1.capacityBytes := by
        rw [hg1.capEq]
        exact Nat.div_mul_le_self _ _
      have h3 : HEADER_SIZE + s1.len * enc.elementSize + enc.elementSize
          = HEADER_SIZE + (s1.len + 1) * enc.elementSize := by ring
      omega
    simp only [append, ← hs1, hpv]
    exact ⟨hg1.mm, hg1.fo, hg1.capEq, by dsimp only; omega,
      by dsimp only; rw [writeBytes_length hoff]; exact hg1.flen, hg1.align⟩

theorem inv_extend {enc : Encoding} {s : ArrayState} (hwf : enc.WF)
    (h : Healthy enc s) (ws : List Int) : Healthy enc (extend enc s ws).2 := by
  rcases Nat.eq_zero_or_pos ws.length with hws0 | hwspos
  · have hnil : ws = [] := List.length_eq_zero.mp hws0
    subst hnil
    simp only [extend, List.length_nil, if_pos rfl]
    exact h
  · have hes : 0 < enc.elementSize := hwf.size_pos
    have hstage : SizeOk enc
        (if s.capacity < s.len + ws.length then resize enc s (s.len + ws.length)
          else s) ∧
        s.len + ws.length ≤ (if s.capacity < s.len + ws.length then
          resize enc s (s.len + ws.length) else s).capacity ∧
        (if s.capacity < s.len + ws.length then resize enc s (s.len + ws.length)
          else s).len = s.len := by
      split
      case isTrue hlt =>
        exact resize_sizeOk hwf h.fo (s.len + ws.length) (by omega)
      case isFalse hge =>
        rcases h with hS | hC
        · exact ⟨hS, by omega, rfl⟩
        · exact absurd (by rw [hC.len0, hC.cap0]; omega) hge
    obtain ⟨hg1, hcap, hlen1⟩ := hstage
    set s1 := if s.capacity < s.len + ws.length then resize enc s (s.len + ws.length)
      else s with hs1
    have hmul : (s.len + ws.length) * enc.elementSize ≤ s1.capacityBytes := by
      calc (s.len + ws.length) * enc.elementSize
          ≤ s1.capacity * enc.elementSize := Nat.mul_le_mul_right _ hcap
      _ = s1.capacityBytes / enc.elementSize * enc.elementSize := by rw [hg1.capEq]
      _ ≤ s1.capacityBytes := Nat.div_mul_le_self _ _
    have hb : (HEADER_SIZE + s1.len * enc.elementSize) + ws.length * enc.elementSize
        ≤ s1.file.length := by
      rw [hg1.flen, hlen1]
      have hd : (s.len + ws.length) * enc.elementSize
          = s.len * enc.elementSize + ws.length * enc.elementSize := by ring
      omega
    obtain ⟨hL, hR, hOK, hERR⟩ :=
      extendLoop_spec hwf ws s1.file (HEADER_SIZE + s1.len * enc.elementSize) hb
    rcases hEL : extendLoop enc s1.file (HEADER_SIZE + s1.len * enc.elementSize) ws
      with ⟨r, f2⟩
    rw [hEL] at hL
    simp only at hL
    left
    cases r with
    | ok =>
      simp only [extend, ← hs1, hEL, if_neg (by omega : ¬ ws.length = 0)]
      exact ⟨hg1.mm, hg1.fo, hg1.capEq, by dsimp only; omega,
        by dsimp only; rw [hL]; exact hg1.flen, hg1.align⟩
    | err e =>
      simp only [extend, ← hs1, hEL, if_neg (by omega : ¬ ws.length = 0)]
      exact ⟨hg1.mm, hg1.fo, hg1.capEq, by dsimp only; omega,
        by dsimp only; rw [hL]; exact hg1.flen, hg1.align⟩
    | notImpl =>
      simp only [extend, ← hs1, hEL, if_neg (by omega : ¬ ws.length = 0)]
      exact ⟨hg1.mm, hg1.fo, hg1.capEq, by dsimp only; omega,
        by dsimp only; rw [hL]; exact hg1.flen, hg1.align⟩

theorem validateIndex_lt {s : ArrayState} {idx : PyInt} {i : Nat}
    (h : validateIndex s idx = .ok i) : i < s.len := by
  cases idx with
  | nonInt => cases h
  | int j =>
    simp only [validateIndex] at h
    split at h
    case isTrue hneg =>
      split at h
      case isTrue hc =>
        injection h with h2
        omega
      case isFalse hc => cases h
    case isFalse hneg =>
      split at h
      case isTrue hc =>
        injection h with h2
        omega
      case isFalse hc => cases h

theorem inv_setItem {enc : Encoding} {s : ArrayState} (hwf : enc.WF)
    (h : Healthy enc s) (idx : PyInt) (v : Int) :
    Healthy enc (setItem enc s idx v).2 := by
  cases hvi : validateIndex s idx with
  | error e =>
    simp only [setItem, hvi]
    exact h
  | ok i =>
    have hi : i < s.len := validateIndex_lt hvi
    rcases h with hS | hC
    · have hes : 0 < enc.elementSize := hwf.size_pos
      cases hpv : enc.pack v with
      | none =>
        simp only [setItem, hvi]
        rw [if_pos hS.mm]
        simp only [hpv]
        exact Or.inl hS
      | some b =>
        have hbl : b.length = enc.elementSize := hwf.pack_size v b hpv
        have hoff : HEADER_SIZE + i * enc.elementSize + b.length ≤ s.file.length := by
          rw [hS.flen, hbl]
          have h1 : (i + 1) * enc.elementSize ≤ s.len * enc.elementSize :=
            Nat.mul_le_mul_right _ (by omega)
          have h2 := hS.lenBytes_le
          have h3 : HEADER_SIZE + i * enc.elementSize + enc.elementSize
              = HEADER_SIZE + (i + 1) * enc.elementSize := by ring
          omega
        simp only [setItem, hvi]
        rw [if_pos hS.mm]
        simp only [hpv]
        exact Or.inl ⟨hS.mm, hS.fo, hS.capEq, hS.lenLe,
          by dsimp only; rw [writeBytes_length hoff]; exact hS.flen, hS.align⟩
    · rw [hC.len0] at hi
      omega

theorem imulCopy_zero (k : Nat) : ∀ (f : List Nat) (dst : Nat),
    imulCopy f 0 dst k = f := by
  induction k with
  | zero => intro f dst; rfl
  | succ k ih =>
    intro f dst
    have hrb : readBytes f HEADER_SIZE 0 = [] := by
      unfold readBytes
      simp
    have hwb : writeBytes f dst (readBytes f HEADER_SIZE 0) = f := by
      rw [hrb]
      unfold writeBytes
      simp
    simp only [imulCopy, hwb]
    exact ih f (dst + 0)

theorem inv_imul {enc : Encoding} {s : ArrayState} (hwf : enc.WF)
    (h : Healthy enc s) (v : PyInt) : Healthy enc (imul enc s v).2 := by
  cases v with
  | nonInt => exact h
  | int n =>
    rcases lt_trichotomy n 0 with hneg | hzero | hpos
    · simp only [imul]
      rw [if_pos hneg]
      exact h
    · subst hzero
      rw [imul_zero_eq]
      right
      refine ⟨?_, rfl, ?_, rfl, rfl, rfl⟩
      · dsimp only
        rw [h.fo]
        unfold truncate
        simp
      · dsimp only
        exact h.fo
    · rcases eq_or_lt_of_le (by omega : (1 : Int) ≤ n) with h1 | h2
      · simp only [imul]
        rw [if_neg (by omega), if_neg (by omega), if_neg (by omega)]
        exact h
      · -- n ≥ 2
        have hN : 2 ≤ n.toNat := by omega
        simp only [imul]
        rw [if_neg (by omega), if_neg (by omega), if_pos h2]
        rcases h with hS | hC
        · have hes : 0 < enc.elementSize := hwf.size_pos
          have hstage : SizeOk enc (if s.capacity < s.len * n.toNat then
                resize enc s (s.len * n.toNat) else s) ∧
              s.len * n.toNat ≤ (if s.capacity < s.len * n.toNat then
                resize enc s (s.len * n.toNat) else s).capacity ∧
              (if s.capacity < s.len * n.toNat then
                resize enc s (s.len * n.toNat) else s).len = s.len := by
            split
            case isTrue hlt =>
              apply resize_sizeOk hwf hS.fo
              calc s.len = s.len * 1 := by ring
              _ ≤ s.len * n.toNat := Nat.mul_le_mul_left _ (by omega)
            case isFalse hge => exact ⟨hS, by omega, rfl⟩
          obtain ⟨hg1, hcap, hlen1⟩ := hstage
          set s1 := if s.capacity < s.len * n.toNat then
            resize enc s (s.len * n.toNat) else s with hs1
          have hmul : (s.len * n.toNat) * enc.elementSize ≤ s1.capacityBytes := by
            calc (s.len * n.toNat) * enc.elementSize
                ≤ s1.capacity * enc.elementSize := Nat.mul_le_mul_right _ hcap
            _ = s1.capacityBytes / enc.elementSize * enc.elementSize := by
                rw [hg1.capEq]
            _ ≤ s1.capacityBytes := Nat.div_mul_le_self _ _
          have hbound : (HEADER_SIZE + s.len * enc.elementSize) +
              (n.toNat - 1) * (s.len * enc.elementSize) ≤ s1.file.length := by
            have he2 : n.toNat - 1 + 1 = n.toNat := by omega
            have he1 : s.len * enc.elementSize +
                (n.toNat - 1) * (s.len * enc.elementSize)
                = (n.toNat - 1 + 1) * (s.len * enc.elementSize) := by ring
            rw [he2] at he1
            have he3 : n.toNat * (s.len * enc.elementSize)
                = (s.len * n.toNat) * enc.elementSize := by ring
            rw [hg1.flen]
            omega
          obtain ⟨hL, hR, hreg⟩ := imulCopy_spec (n.toNat - 1) s1.file
            (s.len * enc.elementSize) (HEADER_SIZE + s.len * enc.elementSize)
            (by omega) hbound
          left
          exact ⟨hg1.mm, hg1.fo, hg1.capEq, by dsimp only; omega,
            by dsimp only; rw [hL]; exact hg1.flen, hg1.align⟩
        · -- cleared: the repeated empty block changes nothing
          right
          have hlen0 : s.len * enc.elementSize = 0 := by
            rw [hC.len0]
            ring
          have hcond : ¬ (s.capacity < s.len * n.toNat) := by
            rw [hC.len0, hC.cap0]
            simp
          rw [if_neg hcond]
          refine ⟨?_, hC.mm, hC.fo, ?_, hC.cap0, hC.capB0⟩
          · dsimp only
            rw [hlen0, imulCopy_zero]
            exact hC.f0
          · dsimp only
            rw [hC.len0]
            ring

theorem inv_iadd {enc : Encoding} {s : ArrayState} (hwf : enc.WF)
    (h : Healthy enc s) (o : AddOperand) : Healthy enc (iadd enc s o).2 := by
  cases o with
  | nonIter => exact h
  | iter ws =>
    have hx := inv_extend hwf h ws
    rcases hE : extend enc s ws with ⟨r, s2⟩
    rw [hE] at hx
    simp only at hx
    cases r with
    | ok => simp only [iadd, hE]; exact hx
    | err e => simp only [iadd, hE]; exact hx
    | notImpl => simp only [iadd, hE]; exact hx

/-- One public mutating operation of the container. -/
inductive Step (enc : Encoding) : ArrayState → ArrayState → Prop
  | append (s : ArrayState) (v : Int) : Step enc s (append enc s v).2
  | extend (s : ArrayState) (vs : List Int) : Step enc s (extend enc s vs).2
  | setItem (s : ArrayState) (idx : PyInt) (v : Int) :
      Step enc s (setItem enc s idx v).2
  | imul (s : ArrayState) (v : PyInt) : Step enc s (imul enc s v).2
  | iadd (s : ArrayState) (o : AddOperand) : Step enc s (iadd enc s o).2

/-- States of a container created fresh and mutated by any sequence of
public operations. -/
inductive Reachable (enc : Encoding) : ArrayState → Prop
  | create (k : Nat) : Reachable enc (createNew enc k)
  | step {s s2 : ArrayState} : Reachable enc s → Step enc s s2 → Reachable enc s2

theorem healthy_reachable {enc : Encoding} (hwf : enc.WF) {s : ArrayState}
    (hr : Reachable enc s) : Healthy enc s := by
  induction hr with
  | create k => exact Or.inl (good_createNew enc hwf k).sizeOk
  | step hr hstep ih =>
    cases hstep with
    | append v => exact Or.inl (inv_append hwf ih v)
    | extend vs => exact inv_extend hwf ih vs
    | setItem idx v => exact inv_setItem hwf ih idx v
    | imul v => exact inv_imul hwf ih v
    | iadd o => exact inv_iadd hwf ih o

/-- Explicit form of `close` on an unmapped but open container. -/
theorem close_eq_nomap {s : ArrayState} (enc : Encoding) (hm : s.mmap = false)
    (hf : s.fileOpen = true) :
    close enc s =
      { s with
        fileOpen := false
        file := (if HEADER_SIZE + s.len * enc.elementSize
            < (writeBytes s.file 0 (headerBytes enc s.len)).length
          then truncate (writeBytes s.file 0 (headerBytes enc s.len))
            (HEADER_SIZE + s.len * enc.elementSize)
          else writeBytes s.file 0 (headerBytes enc s.len)) } := by
  rcases s with ⟨f, mm, fo, len, cap, capB⟩
  replace hm : mm = false := hm
  replace hf : fo = true := hf
  subst hm
  subst hf
  rfl

/-- Closing a live container truncates the file to the exact data size. -/
theorem close_file_length {enc : Encoding} {s : ArrayState} (hwf : enc.WF)
    (h : Healthy enc s) :
    (close enc s).file.length = HEADER_SIZE + s.len * enc.elementSize := by
  rcases h with hS | hC
  · have hhl : (headerBytes enc s.len).length = 32 :=
      headerBytes_length hwf.fmt_le _
    have hwb : (0 : Nat) + (headerBytes enc s.len).length ≤ s.file.length := by
      rw [hhl, hS.flen]
      unfold HEADER_SIZE
      omega
    have hf1len : (writeBytes s.file 0 (headerBytes enc s.len)).length
        = s.file.length := writeBytes_length hwb
    have hml := hS.lenBytes_le
    rw [close_eq_of enc hS.mm hS.fo]
    dsimp only
    split
    case isTrue hlt => rw [truncate_length]
    case isFalse hge =>
      rw [hf1len, hS.flen]
      rw [hf1len, hS.flen] at hge
      omega
  · rw [close_eq_nomap enc hC.mm hC.fo]
    dsimp only
    have hwb0 : writeBytes s.file 0 (headerBytes enc s.len)
        = headerBytes enc s.len := by
      rw [hC.f0]
      unfold writeBytes
      simp
    rw [hwb0, headerBytes_length hwf.fmt_le]
    have hcond : ¬ (HEADER_SIZE + s.len * enc.elementSize < 32) := by
      rw [hC.len0]
      unfold HEADER_SIZE
      omega
    rw [if_neg hcond, headerBytes_length hwf.fmt_le, hC.len0]
    unfold HEADER_SIZE
    omega

/-! ## Capacity monotonicity -/

theorem capacity_resize_ge {enc : Encoding} (hwf : enc.WF) (s : ArrayState)
    (m : Nat) : m ≤ (resize enc s m).capacity := by
  rw [resize_eq]
  exact le_capacity_of_alloc hwf.size_pos m

theorem capacity_append_mono {enc : Encoding} (hwf : enc.WF) (s : ArrayState)
    (v : Int) : s.capacity ≤ (append enc s v).2.capacity := by
  set s1 := if s.len = s.capacity then resize enc s (s.len + 1) else s with hs1
  have hcap : s.capacity ≤ s1.capacity := by
    rw [hs1]
    split
    case isTrue heq =>
      have h2 := capacity_resize_ge hwf s (s.len + 1)
      omega
    case isFalse hne => exact le_refl _
  cases hpv : enc.pack v with
  | none =>
    simp only [append, ← hs1, hpv]
    exact hcap
  | some b =>
    simp only [append, ← hs1, hpv]
    exact hcap

theorem capacity_extend_mono {enc : Encoding} (hwf : enc.WF) (s : ArrayState)
    (ws : List Int) : s.capacity ≤ (extend enc s ws).2.capacity := by
  rcases Nat.eq_zero_or_pos ws.length with h0 | hpos
  · have hnil : ws = [] := List.length_eq_zero.mp h0
    subst hnil
    simp [extend]
  · set s1 := if s.capacity < s.len + ws.length then resize enc s (s.len + ws.length)
      else s with hs1
    have hcap : s.capacity ≤ s1.capacity := by
      rw [hs1]
      split
      case isTrue hlt =>
        have h2 := capacity_resize_ge hwf s (s.len + ws.length)
        omega
      case isFalse hge => exact le_refl _
    rcases hEL : extendLoop enc s1.file (HEADER_SIZE + s1.len * enc.elementSize) ws
      with ⟨r, f2⟩
    simp only [extend, ← hs1, hEL, if_neg (by omega : ¬ ws.length = 0)]
    cases r with
    | ok => exact hcap
    | err e => exact hcap
    | notImpl => exact hcap

theorem capacity_setItem_eq {enc : Encoding} (s : ArrayState) (idx : PyInt)
    (v : Int) : (setItem enc s idx v).2.capacity = s.capacity := by
  rcases hvi : validateIndex s idx with e | i
  · simp only [setItem, hvi]
  · simp only [setItem, hvi]
    split
    · cases hpv : enc.pack v with
      | none => simp only [hpv]
      | some b => simp only [hpv]
    · rfl

theorem capacity_imul_mono {enc : Encoding} (hwf : enc.WF) (s : ArrayState)
    {n : Int} (hn : n ≠ 0) : s.capacity ≤ (imul enc s (.int n)).2.capacity := by
  rcases lt_trichotomy n 0 with hneg | h0 | hp
  · simp only [imul]
    rw [if_pos hneg]
  · exact absurd h0 hn
  · rcases eq_or_lt_of_le (by omega : (1 : Int) ≤ n) with h1 | h2
    · simp only [imul]
      rw [if_neg (by omega), if_neg (by omega), if_neg (by omega)]
    · simp only [imul]
      rw [if_neg (by omega), if_neg (by omega), if_pos h2]
      set s1 := if s.capacity < s.len * n.toNat then resize enc s (s.len * n.toNat)
        else s with hs1
      have hcap : s.capacity ≤ s1.capacity := by
        rw [hs1]
        split
        case isTrue hlt =>
          have h3 := capacity_resize_ge hwf s (s.len * n.toNat)
          omega
        case isFalse hge => exact le_refl _
      exact hcap

theorem capacity_iadd_mono {enc : Encoding} (hwf : enc.WF) (s : ArrayState)
    (o : AddOperand) : s.capacity ≤ (iadd enc s o).2.capacity := by
  cases o with
  | nonIter => exact le_refl _
  | iter ws =>
    have hx := capacity_extend_mono hwf s ws
    rcases hE : extend enc s ws with ⟨r, s2⟩
    rw [hE] at hx
    simp only at hx
    cases r with
    | ok => simp only [iadd, hE]; exact hx
    | err e => simp only [iadd, hE]; exact hx
    | notImpl => simp only [iadd, hE]; exact hx

/-- C3 (amended): on every container created fresh (and any state reached
from it by the public operations) the invariant length ≤ capacity holds,
and no operation except repeat(0) decreases the capacity.  The claim as
stated also covers construction from an arbitrary existing file, which the
code does not validate: a header whose stored length exceeds the capacity
derived from the file size yields length > capacity (see the
counterexample), so the amendment restricts construction to fresh files
and files the system itself wrote. -/
theorem claim3_growth_amended (enc : Encoding) (hwf : enc.WF) (s : ArrayState)
    (hr : Reachable enc s) (v : Int) (ws : List Int) (idx : PyInt)
    (o : AddOperand) (pyn : PyInt) (hn : ∀ n : Int, pyn = .int n → n ≠ 0) :
    s.len ≤ s.capacity ∧
    ((append enc s v).2.len ≤ (append enc s v).2.capacity ∧
      s.capacity ≤ (append enc s v).2.capacity) ∧
    ((extend enc s ws).2.len ≤ (extend enc s ws).2.capacity ∧
      s.capacity ≤ (extend enc s ws).2.capacity) ∧
    ((setItem enc s idx v).2.len ≤ (setItem enc s idx v).2.capacity ∧
      (setItem enc s idx v).2.capacity = s.capacity) ∧
    ((imul enc s pyn).2.len ≤ (imul enc s pyn).2.capacity ∧
      s.capacity ≤ (imul enc s pyn).2.capacity) ∧
    ((iadd enc s o).2.len ≤ (iadd enc s o).2.capacity ∧
      s.capacity ≤ (iadd enc s o).2.capacity) ∧
    (createNew enc 0).len ≤ (createNew enc 0).capacity := by
  have hh := healthy_reachable hwf hr
  refine ⟨hh.len_le, ⟨?_, capacity_append_mono hwf s v⟩,
    ⟨?_, capacity_extend_mono hwf s ws⟩,
    ⟨?_, capacity_setItem_eq s idx v⟩, ⟨?_, ?_⟩,
    ⟨?_, capacity_iadd_mono hwf s o⟩,
    (healthy_reachable hwf (Reachable.create 0)).len_le⟩
  · exact (healthy_reachable hwf (hr.step (Step.append s v))).len_le
  · exact (healthy_reachable hwf (hr.step (Step.extend s ws))).len_le
  · exact (healthy_reachable hwf (hr.step (Step.setItem s idx v))).len_le
  · exact (healthy_reachable hwf (hr.step (Step.imul s pyn))).len_le
  · cases pyn with
    | nonInt => exact le_refl _
    | int n => exact capacity_imul_mono hwf s (hn n rfl)
  · exact (healthy_reachable hwf (hr.step (Step.iadd s o))).len_le

theorem claim3_growth_amended_witness :
    (createNew encI32 0).len ≤ (createNew encI32 0).capacity ∧
    ((append encI32 (createNew encI32 0) 1).2.len
        ≤ (append encI32 (createNew encI32 0) 1).2.capacity ∧
      (createNew encI32 0).capacity
        ≤ (append encI32 (createNew encI32 0) 1).2.capacity) ∧
    ((extend encI32 (createNew encI32 0) [1]).2.len
        ≤ (extend encI32 (createNew encI32 0) [1]).2.capacity ∧
      (createNew encI32 0).capacity
        ≤ (extend encI32 (createNew encI32 0) [1]).2.capacity) ∧
    ((setItem encI32 (createNew encI32 0) (.int 0) 1).2.len
        ≤ (setItem encI32 (createNew encI32 0) (.int 0) 1).2.capacity ∧
      (setItem encI32 (createNew encI32 0) (.int 0) 1).2.capacity
        = (createNew encI32 0).capacity) ∧
    ((imul encI32 (createNew encI32 0) (.int 2)).2.len
        ≤ (imul encI32 (createNew encI32 0) (.int 2)).2.capacity ∧
      (createNew encI32 0).capacity
        ≤ (imul encI32 (createNew encI32 0) (.int 2)).2.capacity) ∧
    ((iadd encI32 (createNew encI32 0) .nonIter).2.len
        ≤ (iadd encI32 (createNew encI32 0) .nonIter).2.capacity ∧
      (createNew encI32 0).capacity
        ≤ (iadd encI32 (createNew encI32 0) .nonIter).2.capacity) ∧
    (createNew encI32 0).len ≤ (createNew encI32 0).capacity :=
  claim3_growth_amended encI32 encI32_wf (createNew encI32 0) (Reachable.create 0)
    1 [1] (.int 0) .nonIter (.int 2)
    (by intro n h; injection h with h2; omega)

/-- C3 counterexample: opening an existing 32-byte file whose valid header
stores length 2000 yields a container with length 2000 but capacity 1016,
so construction violates length ≤ capacity. -/
theorem claim3_growth_cx :
    (openExisting encI32 (headerBytes encI32 2000)).map (fun s => (s.len, s.capacity))
      = .ok (2000, 1016) ∧ ¬ ((2000 : Nat) ≤ 1016) := by
  constructor
  · decide
  · decide

/-- C6 (amended): at every point in a fresh container's life the file size
is 32 + capacity_bytes, the file size itself (not file size minus 32) is a
multiple of the 4096-byte chunk, and 32 + capacity*element_size is at most
(not always equal to) the file size, except after repeat(0), which leaves
a 0-byte file; immediately after close the file size is exactly
32 + length*element_size. -/
theorem claim6_file_size_amended (enc : Encoding) (hwf : enc.WF) (s : ArrayState)
    (hr : Reachable enc s) :
    ((s.file.length = HEADER_SIZE + s.capacityBytes ∧
      s.file.length % CHUNK_SIZE_BYTES = 0 ∧
      HEADER_SIZE + s.capacity * enc.elementSize ≤ s.file.length) ∨
     (s.file.length = 0 ∧ s.len = 0 ∧ s.capacityBytes = 0)) ∧
    (close enc s).file.length = HEADER_SIZE + s.len * enc.elementSize ∧
    (imul enc s (.int 0)).2.file.length = 0 := by
  have hh := healthy_reachable hwf hr
  refine ⟨?_, close_file_length hwf hh, ?_⟩
  · rcases hh with hS | hC
    · left
      refine ⟨hS.flen, ?_, ?_⟩
      · rw [hS.flen]
        exact hS.align
      · rw [hS.flen, hS.capEq]
        have h1 := Nat.div_mul_le_self s.capacityBytes enc.elementSize
        omega
    · right
      rw [hC.f0]
      exact ⟨rfl, hC.len0, hC.capB0⟩
  · rw [imul_zero_eq]
    dsimp only
    rw [hh.fo]
    simp [truncate_length]

theorem claim6_file_size_amended_witness :
    (((createNew encI32 0).file.length
        = HEADER_SIZE + (createNew encI32 0).capacityBytes ∧
      (createNew encI32 0).file.length % CHUNK_SIZE_BYTES = 0 ∧
      HEADER_SIZE + (createNew encI32 0).capacity * encI32.elementSize
        ≤ (createNew encI32 0).file.length) ∨
     ((createNew encI32 0).file.length = 0 ∧ (createNew encI32 0).len = 0 ∧
      (createNew encI32 0).capacityBytes = 0)) ∧
    (close encI32 (createNew encI32 0)).file.length
      = HEADER_SIZE + (createNew encI32 0).len * encI32.elementSize ∧
    (imul encI32 (createNew encI32 0) (.int 0)).2.file.length = 0 :=
  claim6_file_size_amended encI32 encI32_wf (createNew encI32 0) (Reachable.create 0)

/-- C6 counterexample: a fresh container with a 3-byte element encoding has
a 4096-byte file, capacity 1354, and 32 + 1354*3 = 4094, so the file size
differs from 32 + capacity*element_size, and file size minus 32 is 4064,
not a multiple of 4096. -/
theorem claim6_file_size_cx :
    (createNew enc3s 0).file.length = 4096 ∧
    (createNew enc3s 0).capacity = 1354 ∧
    enc3s.elementSize = 3 ∧
    ¬ ((createNew enc3s 0).file.length
        = 32 + (createNew enc3s 0).capacity * enc3s.elementSize) ∧
    ¬ (((createNew enc3s 0).file.length - 32) % 4096 = 0) := by
  have hts : totalSize enc3s 0 = 4096 := by decide
  have hpos : 0 < totalSize enc3s 0 - HEADER_SIZE := by
    rw [hts]
    decide
  have hflen : (createNew enc3s 0).file.length = 4096 := by
    rw [createNew_eq, if_pos hpos]
    dsimp only
    rw [writeBytes_length, truncate_length, hts]
    rw [headerBytes_length enc3s_wf.fmt_le, truncate_length, hts]
    decide
  have hcap : (createNew enc3s 0).capacity = 1354 := by
    rw [createNew_eq, if_pos hpos]
    dsimp only
    rw [hts]
    decide
  refine ⟨hflen, hcap, rfl, ?_, ?_⟩
  · rw [hflen, hcap]
    decide
  · rw [hflen]
    decide

end ArrayFile